import Mathlib

/-!
# Verification of the entropy-coding repository

Shallow embedding of the C++ sources of the `entropy-coding` repository
(binary arithmetic coder, binary range-ANS coder, fast division, fast
fraction multiplication, bit buffers) together with proofs of the
specification's claims about them.

Machine integers are modelled as `ℕ`, with explicit `% 2^32` reductions
(`u32`) at the places where a 32-bit truncation can actually matter;
places where the source provably cannot overflow its 64-bit intermediates
are modelled directly over `ℕ` and the relevant bound is proved.

Floating-point inputs (`double` probabilities and fractions) are modelled
as the exact rational value of the given floating-point number where the
source's arithmetic on them is exact (scaling by a power of two), and
abstracted by their integer image (the clipped/scaled multiplier or
frequency) elsewhere, which over-approximates every value the source can
produce from a `double`.
-/

namespace EntropyCoding

/-- `clip` from `Utilities.h`: clamp `num` into `[min, max]`. -/
def clip (num min max : ℕ) : ℕ :=
  if num < min then min else if max < num then max else num

/-- Truncation to an unsigned 32-bit value (assignment to `uint32_t`). -/
def u32 (x : ℕ) : ℕ := x % 2 ^ 32

theorem u32_eq_of_lt {x : ℕ} (h : x < 2 ^ 32) : u32 x = x := Nat.mod_eq_of_lt h

/-- Truncation to an unsigned 64-bit value (`uint64_t` arithmetic). -/
def u64 (x : ℕ) : ℕ := x % 2 ^ 64

theorem u64_eq_of_lt {x : ℕ} (h : x < 2 ^ 64) : u64 x = x := Nat.mod_eq_of_lt h

/-! ## `FastUint31Division` (file `src/unnamed/part_004`)

Magic-number division of unsigned 31-bit integers: one 64-bit multiply and
a right shift. -/

namespace FastUint31Division

/-- `GetExponentOfClosestPowerOfTwoGreaterOrEqualTo`: the bit width of
`value - 1` (that is `⌈log₂ value⌉`), and `0` for `value ≤ 1`. -/
def GetExponentOfClosestPowerOfTwoGreaterOrEqualTo (value : ℕ) : ℕ :=
  if value ≤ 1 then 0 else Nat.size (value - 1)

end FastUint31Division

/-- The fields of a `FastUint31Division` object. -/
structure FastUint31Division where
  divisor : ℕ
  multiplier : ℕ
  shiftAmount : ℕ
deriving DecidableEq, Repr

namespace FastUint31Division

/-- The `FastUint31Division(uint32_t divisor)` constructor.  `none` models
the `throw` for divisors `≥ 2^31`. -/
def construct (divisor : ℕ) : Option FastUint31Division :=
  if divisor = 0 then some ⟨0, 0, 0⟩
  else if 2 ^ 31 ≤ divisor then none
  else
    let divisorBitWidth := GetExponentOfClosestPowerOfTwoGreaterOrEqualTo divisor
    let shiftAmount := 32 + divisorBitWidth
    let multiplier := ((1 <<< shiftAmount) + (divisor - 1)) / divisor
    some ⟨divisor, multiplier, shiftAmount⟩

/-- `Divide`: `(numerator * multiplier) >> shiftAmount`, truncated to
`uint32_t` on return (and `numerator` truncated on entry). -/
def Divide (d : FastUint31Division) (numerator : ℕ) : ℕ :=
  u32 ((u32 numerator * d.multiplier) >>> d.shiftAmount)

/-- `DivideAndGetRemainder`: the quotient as in `Divide`, and the
`uint32_t` subtraction `numerator - quotient * divisor` (wrapping). -/
def DivideAndGetRemainder (d : FastUint31Division) (numerator : ℕ) : ℕ × ℕ :=
  let quotient := u32 ((u32 numerator * d.multiplier) >>> d.shiftAmount)
  let remainder := u32 (u32 numerator + (2 ^ 32 - u32 (quotient * d.divisor)))
  (quotient, remainder)

theorem divisor_le_pow {d : ℕ} (hd : 1 ≤ d) :
    d ≤ 2 ^ GetExponentOfClosestPowerOfTwoGreaterOrEqualTo d := by
  unfold GetExponentOfClosestPowerOfTwoGreaterOrEqualTo
  split
  · omega
  · have h1 : d - 1 < 2 ^ Nat.size (d - 1) := Nat.lt_size_self (d - 1)
    omega

/-- Core magic-number identity (Hacker's Delight, ch. 10): with
`s = 32 + ⌈log₂ d⌉` and `m = ⌈2^s / d⌉`, the shifted product recovers the
exact quotient for all 31-bit numerators. -/
theorem mul_magic_shift_eq (d n : ℕ) (hd : 1 ≤ d) (hn : n < 2 ^ 31) :
    n * ((2 ^ (32 + GetExponentOfClosestPowerOfTwoGreaterOrEqualTo d) + (d - 1)) / d) /
      2 ^ (32 + GetExponentOfClosestPowerOfTwoGreaterOrEqualTo d) = n / d := by
  set w := GetExponentOfClosestPowerOfTwoGreaterOrEqualTo d with hw
  set s := 32 + w with hs
  set m := (2 ^ s + (d - 1)) / d with hm
  have hdw : d ≤ 2 ^ w := divisor_le_pow hd
  have hdm := Nat.div_add_mod (2 ^ s + (d - 1)) d
  rw [← hm] at hdm
  have hr : (2 ^ s + (d - 1)) % d < d := Nat.mod_lt _ (by omega)
  -- `2^s ≤ d * m ≤ 2^s + d - 1`
  have hlow : 2 ^ s ≤ d * m := by omega
  have hhigh : d * m ≤ 2 ^ s + (d - 1) := by omega
  have hnd := Nat.div_add_mod n d
  have hρ : n % d < d := Nat.mod_lt _ (by omega)
  have hspos : 0 < 2 ^ s := Nat.pos_pow_of_pos s (by omega)
  apply Nat.le_antisymm
  · -- `n*m/2^s ≤ n/d`, via `n*m < (n/d + 1) * 2^s`
    have hkey : n * m * d < (n / d + 1) * 2 ^ s * d := by
      have h1 : n * m * d = n * (d * m) := by ring
      have h2 : n * (d * m) ≤ n * (2 ^ s + (d - 1)) := Nat.mul_le_mul_left n hhigh
      have h3 : n * (2 ^ s + (d - 1)) = n * 2 ^ s + n * (d - 1) := by ring
      have h4 : n * 2 ^ s = (d * (n / d)) * 2 ^ s + (n % d) * 2 ^ s := by
        rw [← Nat.add_mul, hnd]
      have h5 : (n % d) * 2 ^ s ≤ (d - 1) * 2 ^ s :=
        Nat.mul_le_mul_right _ (by omega)
      have h6 : n * (d - 1) < 2 ^ s := by
        calc n * (d - 1) < 2 ^ 31 * 2 ^ w := by
              rcases Nat.eq_zero_or_pos (d - 1) with h | h
              · rw [h]; simp [Nat.pos_pow_of_pos]
              · exact Nat.mul_lt_mul_of_lt_of_le hn (by omega) (by omega)
          _ ≤ 2 ^ s := by rw [hs, pow_add]; exact Nat.mul_le_mul_right _ (by norm_num)
      have h7 : (n / d + 1) * 2 ^ s * d = (d * (n / d)) * 2 ^ s + 2 ^ s * d := by ring
      have h8 : (d - 1) * 2 ^ s + 2 ^ s = d * 2 ^ s := by
        have : (d - 1) + 1 = d := by omega
        calc (d - 1) * 2 ^ s + 2 ^ s = ((d - 1) + 1) * 2 ^ s := by ring
          _ = d * 2 ^ s := by rw [this]
      have h9 : 2 ^ s * d = d * 2 ^ s := by ring
      omega
    have hlt : n * m < (n / d + 1) * 2 ^ s := Nat.lt_of_mul_lt_mul_right hkey
    have := (Nat.div_lt_iff_lt_mul hspos).mpr hlt
    omega
  · -- `n/d ≤ n*m/2^s`
    rw [Nat.le_div_iff_mul_le hspos]
    calc n / d * 2 ^ s ≤ n / d * (d * m) := Nat.mul_le_mul_left _ hlow
      _ = (n / d * d) * m := by ring
      _ ≤ n * m := Nat.mul_le_mul_right _ (Nat.div_mul_le_self n d)

/-- **C3.** For every divisor `d ∈ [1, 2³¹ − 1]` and numerator `n ∈ [0, 2³¹)`,
the object built by the `FastUint31Division` constructor (shift
`32 + ⌈log₂ d⌉`, multiplier `⌈2^shift / d⌉`) satisfies
`DivideAndGetRemainder n = (n / d, n % d)`: the quotient is the exact
truncated quotient and the remainder is `n − q·d = n mod d`. -/
theorem fastUint31Division_divmod_exact (d n : ℕ) (hd : 1 ≤ d)
    (hd31 : d ≤ 2 ^ 31 - 1) (hn : n < 2 ^ 31) :
    ∃ f, construct d = some f ∧
      f.DivideAndGetRemainder n = (n / d, n % d) ∧
      (n / d) * d + (n % d) = n := by
  refine ⟨⟨d, ((2 ^ (32 + GetExponentOfClosestPowerOfTwoGreaterOrEqualTo d) + (d - 1)) / d),
      32 + GetExponentOfClosestPowerOfTwoGreaterOrEqualTo d⟩, ?_, ?_, ?_⟩
  · unfold construct
    rw [if_neg (by omega), if_neg (by push_neg; omega)]
    simp [Nat.shiftLeft_eq]
  · unfold DivideAndGetRemainder
    have hn32 : n < 2 ^ 32 := by omega
    rw [u32_eq_of_lt hn32]
    simp only [Nat.shiftRight_eq_div_pow]
    rw [mul_magic_shift_eq d n hd hn]
    have hqd : n / d * d ≤ n := Nat.div_mul_le_self n d
    have hq32 : n / d < 2 ^ 32 := lt_of_le_of_lt (Nat.div_le_self n d) (by omega)
    have hqd32 : n / d * d < 2 ^ 32 := by omega
    rw [u32_eq_of_lt hq32, u32_eq_of_lt hqd32]
    have hnd := Nat.div_add_mod n d
    have hmod : n % d < d := Nat.mod_lt _ (by omega)
    have hcomm : n / d * d = d * (n / d) := Nat.mul_comm _ _
    have : n + (2 ^ 32 - n / d * d) = 2 ^ 32 + n % d := by omega
    rw [this]
    unfold u32
    have : (2 ^ 32 + n % d) % 2 ^ 32 = n % d := by omega
    rw [this]
  · have := Nat.div_add_mod n d
    have hcomm : n / d * d = d * (n / d) := Nat.mul_comm _ _
    omega

/-- Witness for C3, at the spec's concrete scenario
`fastDiv(7).divmod(2147483646) = (306783378, 0)`. -/
theorem fastUint31Division_divmod_exact_witness :
    ∃ f, construct 7 = some f ∧
      f.DivideAndGetRemainder 2147483646 = (306783378, 0) := by
  obtain ⟨f, h1, h2, h3⟩ :=
    fastUint31Division_divmod_exact 7 2147483646 (by norm_num) (by norm_num) (by norm_num)
  refine ⟨f, h1, ?_⟩
  rw [h2]

end FastUint31Division

/-! ## `FastUint32MultiplicationByFraction` (file `src/unnamed/part_000`)

Fixed-point multiplication of a `uint32` by a fraction in `[0, 1]`. -/

/-- The fields of a `FastUint32MultiplicationByFraction` object
(`scaleFactor` is the constant `2^32`). -/
structure FastUint32MultiplicationByFraction where
  scaledMultiplier : ℕ
deriving DecidableEq, Repr

namespace FastUint32MultiplicationByFraction

/-- The constructor. `none` models the `throw` for fractions outside
`[0, 1]`.  The `double` argument is modelled by its exact rational value;
`uint64_t(fraction * scaleFactor)` is `⌊fraction · 2^32⌋`, since scaling a
`double` in `[0,1]` by `2^32` is exact and the cast truncates. -/
def construct (fractionBetween0And1 : ℚ) :
    Option FastUint32MultiplicationByFraction :=
  if fractionBetween0And1 < 0 ∨ 1 < fractionBetween0And1 then none
  else some ⟨(⌊fractionBetween0And1 * 2 ^ 32⌋).toNat⟩

/-- `Multiply`: `(multiplicand * scaledMultiplier) >> 32`, with the
`uint32_t` truncations of the argument and of the returned value. -/
def Multiply (fm : FastUint32MultiplicationByFraction) (multiplicand : ℕ) : ℕ :=
  u32 ((u32 multiplicand * fm.scaledMultiplier) >>> 32)

/-- **C8.** For `f ∈ [0, 1]` and `x < 2^32`, the constructed multiplier
stores `M = ⌊f · 2^32⌋`, `Multiply x` equals `⌊x · M / 2^32⌋`, and the
result differs from `⌊x · f⌋` by at most 1. -/
theorem fastUint32MultiplicationByFraction_correct (f : ℚ) (x : ℕ)
    (hf0 : 0 ≤ f) (hf1 : f ≤ 1) (hx : x < 2 ^ 32) :
    ∃ fm, construct f = some fm ∧
      fm.scaledMultiplier = (⌊f * 2 ^ 32⌋).toNat ∧
      fm.Multiply x = x * fm.scaledMultiplier / 2 ^ 32 ∧
      |(fm.Multiply x : ℤ) - ⌊(x : ℚ) * f⌋| ≤ 1 := by
  have h2pos : (0 : ℚ) < 2 ^ 32 := by positivity
  have h0flr : (0 : ℤ) ≤ ⌊f * 2 ^ 32⌋ := Int.floor_nonneg.mpr (by positivity)
  have hcastN : (((⌊f * 2 ^ 32⌋).toNat : ℕ) : ℚ) = ((⌊f * 2 ^ 32⌋ : ℤ) : ℚ) := by
    exact_mod_cast congrArg (fun z : ℤ => (z : ℚ)) (Int.toNat_of_nonneg h0flr)
  have hMle : ((⌊f * 2 ^ 32⌋).toNat : ℚ) ≤ f * 2 ^ 32 := by
    rw [hcastN]; exact Int.floor_le _
  have hMlt : f * 2 ^ 32 < ((⌊f * 2 ^ 32⌋).toNat : ℚ) + 1 := by
    rw [hcastN]; exact Int.lt_floor_add_one _
  have hM32 : (⌊f * 2 ^ 32⌋).toNat ≤ 2 ^ 32 := by
    have : f * 2 ^ 32 ≤ 2 ^ 32 := by nlinarith
    have h1 : ⌊f * 2 ^ 32⌋ ≤ ⌊(2 ^ 32 : ℚ)⌋ := Int.floor_le_floor this
    have h2 : ⌊((2 : ℚ) ^ 32)⌋ = (2 ^ 32 : ℤ) := by
      norm_num
    omega
  set M := (⌊f * 2 ^ 32⌋).toNat with hMdef
  have hmul : Multiply ⟨M⟩ x = x * M / 2 ^ 32 := by
    unfold Multiply
    rw [u32_eq_of_lt hx]
    simp only [Nat.shiftRight_eq_div_pow]
    apply u32_eq_of_lt
    have h1 : x * M ≤ x * 2 ^ 32 := Nat.mul_le_mul_left x hM32
    have h2 : x * M / 2 ^ 32 ≤ x * 2 ^ 32 / 2 ^ 32 := Nat.div_le_div_right h1
    rw [Nat.mul_div_cancel x (by norm_num)] at h2
    omega
  refine ⟨⟨M⟩, ?_, rfl, hmul, ?_⟩
  · unfold construct
    rw [if_neg (by push_neg; exact ⟨hf0, hf1⟩)]
  · set r := x * M / 2 ^ 32 with hrdef
    have hdm := Nat.div_add_mod (x * M) (2 ^ 32)
    rw [← hrdef] at hdm
    have hmod : x * M % 2 ^ 32 < 2 ^ 32 := Nat.mod_lt _ (by norm_num)
    have hleft : (r : ℤ) ≤ ⌊(x : ℚ) * f⌋ := by
      rw [Int.le_floor]
      have h1 : (r : ℚ) * 2 ^ 32 ≤ (x : ℚ) * M := by
        have : (2 ^ 32 * r : ℕ) ≤ x * M := by omega
        calc (r : ℚ) * 2 ^ 32 = ((2 ^ 32 * r : ℕ) : ℚ) := by push_cast; ring
          _ ≤ ((x * M : ℕ) : ℚ) := by exact_mod_cast this
          _ = (x : ℚ) * M := by push_cast; ring
      have h2 : (x : ℚ) * M ≤ (x : ℚ) * f * 2 ^ 32 := by
        have := mul_le_mul_of_nonneg_left hMle (by positivity : (0 : ℚ) ≤ (x : ℚ))
        calc (x : ℚ) * M ≤ (x : ℚ) * (f * 2 ^ 32) := this
          _ = (x : ℚ) * f * 2 ^ 32 := by ring
      have := le_trans h1 h2
      push_cast
      nlinarith
    have hright : ⌊(x : ℚ) * f⌋ ≤ (r : ℤ) + 1 := by
      have hflt : (x : ℚ) * f < (r : ℚ) + 2 := by
        have h1 : (x : ℚ) * f * 2 ^ 32 ≤ (x : ℚ) * (M + 1) := by
          have := mul_le_mul_of_nonneg_left (le_of_lt hMlt)
            (by positivity : (0 : ℚ) ≤ (x : ℚ))
          calc (x : ℚ) * f * 2 ^ 32 = (x : ℚ) * (f * 2 ^ 32) := by ring
            _ ≤ (x : ℚ) * (M + 1) := this
        have h2 : ((x * M : ℕ) : ℚ) < ((r : ℚ) + 1) * 2 ^ 32 := by
          have : (x * M : ℕ) < 2 ^ 32 * (r + 1) := by omega
          calc ((x * M : ℕ) : ℚ) < ((2 ^ 32 * (r + 1) : ℕ) : ℚ) := by exact_mod_cast this
            _ = ((r : ℚ) + 1) * 2 ^ 32 := by push_cast; ring
        have h3 : (x : ℚ) < 2 ^ 32 := by exact_mod_cast hx
        have h4 : (x : ℚ) * (M + 1) = ((x * M : ℕ) : ℚ) + x := by push_cast; ring
        nlinarith
      have := Int.floor_lt.mpr (by exact_mod_cast hflt : (x : ℚ) * f < ((r : ℤ) + 2 : ℤ))
      omega
    rw [hmul]
    rw [abs_le]
    omega

/-- Witness for C8 at `f = 1/2`, `x = 7`: the stored multiplier is `2^31`
and `Multiply 7 = 3 = ⌊7 · (1/2)⌋`. -/
theorem fastUint32MultiplicationByFraction_correct_witness :
    ∃ fm, construct (1 / 2 : ℚ) = some fm ∧ fm.Multiply 7 = 3 := by
  obtain ⟨fm, h1, h2, h3, h4⟩ :=
    fastUint32MultiplicationByFraction_correct (1 / 2) 7 (by norm_num) (by norm_num)
      (by norm_num)
  have hM : fm.scaledMultiplier = 2 ^ 31 := by
    rw [h2]
    have heq : (1 / 2 : ℚ) * 2 ^ 32 = ((2 ^ 31 : ℕ) : ℚ) := by norm_num
    rw [heq, Int.floor_natCast]
    decide
  refine ⟨fm, h1, ?_⟩
  rw [h3, hM]
  norm_num

end FastUint32MultiplicationByFraction

/-! ## `BinaryRangeANSCoder` (file `src/include/BinaryRangeANSCoder.h`)

Binary range asymmetric-numeral-systems coder. -/

/-- The `StateAndSymbol` struct (`symbol : Bool`, `true` = symbol 1). -/
structure StateAndSymbol where
  state : ℕ
  symbol : Bool
deriving DecidableEq, Repr

/-- The fields of a `BinaryRangeANSCoder` set by its constructor.
`totalFrequency` is always `1 << totalFrequencySpaceBits` and the
frequency/cumulative-frequency tables are determined by `frequencyOf0`,
so only these two fields are stored. -/
structure BinaryRangeANSCoder where
  totalFrequencySpaceBits : ℕ
  frequencyOf0 : ℕ
deriving DecidableEq, Repr

namespace BinaryRangeANSCoder

/-- `totalFrequency = 1ULL << totalFrequencySpaceBits`. -/
def totalFrequency (c : BinaryRangeANSCoder) : ℕ := 1 <<< c.totalFrequencySpaceBits

/-- The `frequencyOf` lookup table: `frequencyOf[1] = totalFrequency - frequencyOf0`. -/
def frequencyOf (c : BinaryRangeANSCoder) (symbol : Bool) : ℕ :=
  if symbol then c.totalFrequency - c.frequencyOf0 else c.frequencyOf0

/-- The `cumulativeFrequencyOf` lookup table: `[0, frequencyOf0]`. -/
def cumulativeFrequencyOf (c : BinaryRangeANSCoder) (symbol : Bool) : ℕ :=
  if symbol then c.frequencyOf0 else 0

/-- The `BinaryRangeANSCoder(double probabilityOf1, int totalFrequencySpaceBits)`
constructor.  The floating-point step `round(probabilityOf0 * totalFrequency)`
is abstracted by its integer result `frequencyOf0Rounded`; the constructor
clips it into `[1, totalFrequency - 1]` and stores the fields.  The source
constructor contains no validity check of either argument and no `throw`:
construction always succeeds. -/
def construct (frequencyOf0Rounded : ℕ) (totalFrequencySpaceBits : ℕ) :
    BinaryRangeANSCoder :=
  ⟨totalFrequencySpaceBits,
    clip frequencyOf0Rounded 1 ((1 <<< totalFrequencySpaceBits) - 1)⟩

/-- `ComputeEncoderStateTransitionFor`.  The source computes
`totalFrequency * quotient + symbolCumulativeFrequency + remainder` in
`uint64_t`, so the product can wrap modulo `2^64` for very large states;
the `u64` truncation models that wrap. -/
def ComputeEncoderStateTransitionFor (c : BinaryRangeANSCoder)
    (state : ℕ) (symbol : Bool) : ℕ :=
  let symbolFrequency := c.frequencyOf symbol
  let symbolCumulativeFrequency := c.cumulativeFrequencyOf symbol
  let quotient := state / symbolFrequency
  let remainder := state % symbolFrequency
  u64 (c.totalFrequency * quotient + symbolCumulativeFrequency + remainder)

/-- `ComputeDecoderStateTransitionFor`.  `state >> bits` and
`state & (totalFrequency - 1)` compute the power-of-two quotient and
remainder.  The source computes the new state as
`frequency * quotient - cumulative + remainder` in `uint64`; since
`remainder ≥ cumulative` holds for the decoded symbol, this equals
`frequency * quotient + remainder - cumulative`, which is how the
(non-wrapping) value is written here. -/
def ComputeDecoderStateTransitionFor (c : BinaryRangeANSCoder) (state : ℕ) :
    StateAndSymbol :=
  let quotient := state >>> c.totalFrequencySpaceBits
  let remainder := state &&& (c.totalFrequency - 1)
  let decodedSymbol : Bool := if remainder < c.cumulativeFrequencyOf true then false else true
  let newState := c.frequencyOf decodedSymbol * quotient + remainder -
    c.cumulativeFrequencyOf decodedSymbol
  ⟨newState, decodedSymbol⟩

/-- `GenerateEncoderStateTransitionTable`: for each state value below
`totalFrequency * 256`, push the transition for symbol 0 then the one for
symbol 1 (index layout `2·state + symbol`). -/
def GenerateEncoderStateTransitionTable (c : BinaryRangeANSCoder) : List ℕ :=
  (List.range (c.totalFrequency * 256)).flatMap fun stateValue =>
    [c.ComputeEncoderStateTransitionFor stateValue false,
     c.ComputeEncoderStateTransitionFor stateValue true]

/-- `GenerateDecoderStateTransitionTable`: one entry per state value. -/
def GenerateDecoderStateTransitionTable (c : BinaryRangeANSCoder) :
    List StateAndSymbol :=
  (List.range (c.totalFrequency * 256)).map fun stateValue =>
    c.ComputeDecoderStateTransitionFor stateValue

/-- `LookupEncoderStateTransitionFor`: `table.at(state * 2 + symbol)`. -/
def LookupEncoderStateTransitionFor (table : List ℕ) (state : ℕ)
    (symbol : Bool) : ℕ :=
  table.getD (state * 2 + if symbol then 1 else 0) 0

/-- `LookupDecoderStateTransitionFor`: `table.at(state)`. -/
def LookupDecoderStateTransitionFor (table : List StateAndSymbol)
    (state : ℕ) : StateAndSymbol :=
  table.getD state ⟨0, false⟩

theorem totalFrequency_eq (c : BinaryRangeANSCoder) :
    c.totalFrequency = 2 ^ c.totalFrequencySpaceBits := by
  unfold totalFrequency
  rw [Nat.shiftLeft_eq, one_mul]

/-- The flush loop inside `Encode`: while `state ≥ frequency * 256`, push
`state & 255` and shift `state` right by 8 bits.  The returned bytes are
listed in the final order produced by `Encode`'s trailing `std::reverse`
(the byte pushed first comes last).  The C++ loop is unbounded; here
`fuel` bounds it, and the callers' fuel of 64 is shown sufficient for
every reachable state by `flushLoop_bounds` below (each iteration removes
8 bits from the state). -/
def flushLoop : ℕ → ℕ → ℕ → ℕ × List ℕ
  | 0, _, state => (state, [])
  | fuel + 1, symbolFrequency, state =>
    if symbolFrequency * 256 ≤ state then
      let r := flushLoop fuel symbolFrequency (state >>> 8)
      (r.1, r.2 ++ [state &&& 255])
    else (state, [])

/-- The body of `Encode`.  The source iterates `readPosition` from
`BitLength() - 1` down to `0`; here the recursive call encodes the later
message bits first, so the head of the list is processed last, as in the
source.  Output bytes accumulate in final (post-`std::reverse`) order. -/
def encodeLoop (c : BinaryRangeANSCoder) : List Bool → ℕ → ℕ × List ℕ
  | [], state => (state, [])
  | symbol :: rest, state =>
    let r1 := encodeLoop c rest state
    let r2 := flushLoop 64 (c.frequencyOf symbol) r1.1
    (c.ComputeEncoderStateTransitionFor r2.1 symbol, r2.2 ++ r1.2)

/-- `Encode`: start from `state = totalFrequency`, encode the input bits in
reverse order, and return the final state together with the output bytes
(in the order produced by the final `std::reverse`). -/
def Encode (c : BinaryRangeANSCoder) (inputBits : List Bool) : ℕ × List ℕ :=
  encodeLoop c inputBits c.totalFrequency

/-- The unflush loop inside `Decode`: while `state < totalFrequency` and
encoded bytes remain, shift the next byte into the state. -/
def unflushLoop (c : BinaryRangeANSCoder) : ℕ → List ℕ → ℕ × List ℕ
  | state, [] => (state, [])
  | state, b :: rest =>
    if state < c.totalFrequency then unflushLoop c ((state <<< 8) ||| b) rest
    else (state, b :: rest)

/-- The body of `Decode`: one iteration per requested output bit; returns
the decoded bits together with the final state and the unread bytes. -/
def decodeLoop (c : BinaryRangeANSCoder) : ℕ → List ℕ → ℕ → List Bool × ℕ × List ℕ
  | 0, bytes, state => ([], state, bytes)
  | n + 1, bytes, state =>
    let r1 := unflushLoop c state bytes
    let t := c.ComputeDecoderStateTransitionFor r1.1
    let r2 := decodeLoop c n r1.2 t.state
    (t.symbol :: r2.1, r2.2)

/-- `Decode`: decode `outputBitLength` bits from the encoded bytes and the
transmitted final state; the bits written into the pre-sized zeroed output
bit array are returned as a list. -/
def Decode (c : BinaryRangeANSCoder) (encodedBytes : List ℕ) (state : ℕ)
    (outputBitLength : ℕ) : List Bool :=
  (decodeLoop c outputBitLength encodedBytes state).1

theorem totalFrequency_pos (c : BinaryRangeANSCoder) : 0 < c.totalFrequency := by
  rw [totalFrequency_eq]; positivity

theorem frequencyOf_pos (c : BinaryRangeANSCoder) (hf0 : 1 ≤ c.frequencyOf0)
    (hf1 : c.frequencyOf0 < c.totalFrequency) (s : Bool) : 0 < c.frequencyOf s := by
  cases s <;> simp [frequencyOf] <;> omega

theorem frequencyOf_lt (c : BinaryRangeANSCoder) (hf0 : 1 ≤ c.frequencyOf0)
    (hf1 : c.frequencyOf0 < c.totalFrequency) (s : Bool) :
    c.frequencyOf s < c.totalFrequency := by
  cases s <;> simp [frequencyOf] <;> omega

theorem cum_add_freq_le (c : BinaryRangeANSCoder) (hf1 : c.frequencyOf0 < c.totalFrequency)
    (s : Bool) : c.cumulativeFrequencyOf s + c.frequencyOf s ≤ c.totalFrequency := by
  cases s <;> simp [frequencyOf, cumulativeFrequencyOf] <;> omega

/-- Flush-loop bounds: with positive frequency and enough fuel for the
state's width, the loop ends below the flush threshold, and never drops
below the frequency itself. -/
theorem flushLoop_bounds (f : ℕ) :
    ∀ (fuel x : ℕ), x < 256 ^ fuel * (256 * f) →
      (flushLoop fuel f x).1 < 256 * f ∧
      (f ≤ x → f ≤ (flushLoop fuel f x).1) := by
  intro fuel
  induction fuel with
  | zero =>
      intro x hx
      simp only [flushLoop]
      constructor
      · simpa using hx
      · intro h; exact h
  | succ k ih =>
      intro x hx
      simp only [flushLoop]
      by_cases hguard : f * 256 ≤ x
      · rw [if_pos hguard]
        have hx' : x >>> 8 < 256 ^ k * (256 * f) := by
          rw [Nat.shiftRight_eq_div_pow]
          have h28 : (2 : ℕ) ^ 8 = 256 := by norm_num
          rw [h28]
          rw [pow_succ'] at hx
          have hre : 256 * 256 ^ k * (256 * f) = 256 * (256 ^ k * (256 * f)) := by ring
          rw [hre] at hx
          omega
        have := ih (x >>> 8) hx'
        refine ⟨this.1, fun _ => this.2 ?_⟩
        rw [Nat.shiftRight_eq_div_pow]
        have h28 : (2 : ℕ) ^ 8 = 256 := by norm_num
        rw [h28]
        omega
      · rw [if_neg hguard]
        exact ⟨by omega, fun h => h⟩

/-- For states small enough that the `uint64` computation cannot overflow
(`totalFrequency * (state + 1) ≤ 2^64` suffices), the encoder transition
equals its exact unbounded value.  All states inside the coder's working
window `[totalFrequency, 256 * totalFrequency)` with `R ≤ 23` qualify. -/
theorem encoderTransition_eq_of_small (c : BinaryRangeANSCoder)
    (hf1 : c.frequencyOf0 < c.totalFrequency) (s : Bool) (x : ℕ)
    (hfs : 0 < c.frequencyOf s)
    (hx64 : c.totalFrequency * (x + 1) ≤ 2 ^ 64) :
    c.ComputeEncoderStateTransitionFor x s =
      c.totalFrequency * (x / c.frequencyOf s) + c.cumulativeFrequencyOf s +
        x % c.frequencyOf s := by
  have hr : x % c.frequencyOf s < c.frequencyOf s := Nat.mod_lt _ hfs
  have hcf := cum_add_freq_le c hf1 s
  have hq : x / c.frequencyOf s ≤ x := Nat.div_le_self _ _
  have h1 : c.totalFrequency * (x / c.frequencyOf s) ≤ c.totalFrequency * x :=
    Nat.mul_le_mul_left _ hq
  have h2 : c.totalFrequency * (x + 1) = c.totalFrequency * x + c.totalFrequency := by
    ring
  have hb : c.totalFrequency * (x / c.frequencyOf s) + c.cumulativeFrequencyOf s +
      x % c.frequencyOf s < 2 ^ 64 := by omega
  simp only [ComputeEncoderStateTransitionFor]
  exact u64_eq_of_lt hb

/-- Encoder-transition bounds: from a post-flush state in
`[frequency, 256·frequency)`, the transition lands in
`[totalFrequency, 256·totalFrequency)`. -/
theorem encodeTransition_bounds (c : BinaryRangeANSCoder)
    (hf1 : c.frequencyOf0 < c.totalFrequency) (s : Bool) (x : ℕ)
    (hfs : 0 < c.frequencyOf s)
    (hlow : c.frequencyOf s ≤ x) (hhigh : x < 256 * c.frequencyOf s)
    (hx64 : c.totalFrequency * (x + 1) ≤ 2 ^ 64) :
    c.totalFrequency ≤ c.ComputeEncoderStateTransitionFor x s ∧
      c.ComputeEncoderStateTransitionFor x s < 256 * c.totalFrequency := by
  have hq1 : 1 ≤ x / c.frequencyOf s := (Nat.one_le_div_iff hfs).mpr hlow
  have hq255 : x / c.frequencyOf s < 256 := by
    rw [Nat.div_lt_iff_lt_mul hfs]
    omega
  have hr : x % c.frequencyOf s < c.frequencyOf s := Nat.mod_lt _ hfs
  have hcf := cum_add_freq_le c hf1 s
  rw [encoderTransition_eq_of_small c hf1 s x hfs hx64]
  constructor
  · calc c.totalFrequency = c.totalFrequency * 1 := by ring
      _ ≤ c.totalFrequency * (x / c.frequencyOf s) := Nat.mul_le_mul_left _ hq1
      _ ≤ _ := by omega
  · have h1 : c.totalFrequency * (x / c.frequencyOf s) ≤ c.totalFrequency * 255 :=
      Nat.mul_le_mul_left _ (by omega)
    omega

/-- Every state reached after an encode step (flush loop and transition)
starting from a state in `[totalFrequency, 256 · totalFrequency)` is again
in that window. -/
theorem encodeLoop_state_bounds (c : BinaryRangeANSCoder)
    (hf0 : 1 ≤ c.frequencyOf0) (hf1 : c.frequencyOf0 < c.totalFrequency)
    (hR : c.totalFrequencySpaceBits ≤ 23) :
    ∀ (m : List Bool) (x : ℕ), c.totalFrequency ≤ x → x < 256 * c.totalFrequency →
      c.totalFrequency ≤ (encodeLoop c m x).1 ∧
        (encodeLoop c m x).1 < 256 * c.totalFrequency := by
  intro m
  induction m with
  | nil => intro x h1 h2; exact ⟨h1, h2⟩
  | cons b rest ih =>
      intro x h1 h2
      obtain ⟨hx1, hx2⟩ := ih x h1 h2
      have hfs : 0 < c.frequencyOf b := frequencyOf_pos c hf0 hf1 b
      have hfsT : c.frequencyOf b < c.totalFrequency := frequencyOf_lt c hf0 hf1 b
      have hTsmall : c.totalFrequency ≤ 2 ^ 23 := by
        rw [totalFrequency_eq]
        exact Nat.pow_le_pow_right (by norm_num) hR
      have hfuel : (encodeLoop c rest x).1 < 256 ^ 64 * (256 * c.frequencyOf b) := by
        have h256 : 256 * c.totalFrequency ≤ 256 ^ 64 * (256 * c.frequencyOf b) := by
          have ha : 256 * c.totalFrequency ≤ 256 * 2 ^ 23 :=
            Nat.mul_le_mul_left _ hTsmall
          have hb : (256 : ℕ) * 2 ^ 23 ≤ 256 ^ 64 := by norm_num
          have hc : 256 ^ 64 ≤ 256 ^ 64 * (256 * c.frequencyOf b) :=
            Nat.le_mul_of_pos_right _ (by omega)
          omega
        omega
      obtain ⟨hfl1, hfl2⟩ := flushLoop_bounds (c.frequencyOf b) 64
        (encodeLoop c rest x).1 hfuel
      have hfle : c.frequencyOf b ≤ (flushLoop 64 (c.frequencyOf b) (encodeLoop c rest x).1).1 :=
        hfl2 (by omega)
      have hx64 : c.totalFrequency *
          ((flushLoop 64 (c.frequencyOf b) (encodeLoop c rest x).1).1 + 1) ≤
          2 ^ 64 := by
        have hxp1 : (flushLoop 64 (c.frequencyOf b) (encodeLoop c rest x).1).1 + 1 ≤
            256 * c.totalFrequency := by omega
        calc c.totalFrequency *
            ((flushLoop 64 (c.frequencyOf b) (encodeLoop c rest x).1).1 + 1)
            ≤ c.totalFrequency * (256 * c.totalFrequency) :=
              Nat.mul_le_mul_left _ hxp1
          _ ≤ 2 ^ 23 * (256 * 2 ^ 23) :=
              Nat.mul_le_mul hTsmall (Nat.mul_le_mul_left _ hTsmall)
          _ ≤ 2 ^ 64 := by norm_num
      have := encodeTransition_bounds c hf1 b
        (flushLoop 64 (c.frequencyOf b) (encodeLoop c rest x).1).1 hfs hfle hfl1 hx64
      simpa [encodeLoop] using this

/-- Unflushing a flushed state over the flushed bytes (followed by anything)
is the same as unflushing the original state over the rest: the decoder
reads back exactly the flushed bytes, in order. -/
theorem unflush_flushLoop (c : BinaryRangeANSCoder) (f : ℕ) (hf : 1 ≤ f)
    (_hfT : f < c.totalFrequency) :
    ∀ (fuel x : ℕ), x < 256 ^ fuel * (256 * f) → x < 256 * c.totalFrequency →
      ∀ tail, unflushLoop c (flushLoop fuel f x).1 ((flushLoop fuel f x).2 ++ tail) =
        unflushLoop c x tail := by
  intro fuel
  induction fuel with
  | zero => intro x hx hxT tail; simp [flushLoop]
  | succ k ih =>
      intro x hx hxT tail
      by_cases hguard : f * 256 ≤ x
      · have hstep : flushLoop (k + 1) f x =
            ((flushLoop k f (x >>> 8)).1, (flushLoop k f (x >>> 8)).2 ++ [x &&& 255]) := by
          simp [flushLoop, hguard]
        rw [hstep]
        have hdiv : x >>> 8 = x / 256 := by
          rw [Nat.shiftRight_eq_div_pow]
        have hx' : x >>> 8 < 256 ^ k * (256 * f) := by
          rw [hdiv]
          rw [pow_succ'] at hx
          have hre : 256 * 256 ^ k * (256 * f) = 256 * (256 ^ k * (256 * f)) := by ring
          rw [hre] at hx
          omega
        have hxT' : x >>> 8 < 256 * c.totalFrequency := by
          rw [hdiv]; omega
        have hrec := ih (x >>> 8) hx' hxT' ((x &&& 255) :: tail)
        calc unflushLoop c (flushLoop k f (x >>> 8)).1
              (((flushLoop k f (x >>> 8)).2 ++ [x &&& 255]) ++ tail)
            = unflushLoop c (flushLoop k f (x >>> 8)).1
              ((flushLoop k f (x >>> 8)).2 ++ ((x &&& 255) :: tail)) := by
              rw [List.append_assoc]
              rfl
          _ = unflushLoop c (x >>> 8) ((x &&& 255) :: tail) := hrec
          _ = unflushLoop c x tail := by
              have hlt : x >>> 8 < c.totalFrequency := by
                rw [hdiv]; omega
              have hand : x &&& 255 = x % 256 := by
                have : (255 : ℕ) = 2 ^ 8 - 1 := by norm_num
                rw [this, Nat.and_pow_two_sub_one_eq_mod]
              have hshift : ((x >>> 8) <<< 8) ||| (x &&& 255) = x := by
                rw [hand, hdiv, Nat.shiftLeft_eq]
                have h256 : (2 : ℕ) ^ 8 = 256 := by norm_num
                rw [h256]
                have hmod : x % 256 < 256 := Nat.mod_lt _ (by norm_num)
                have hor := Nat.mul_add_lt_is_or (i := 8) (b := x % 256)
                  (by omega) (x / 256)
                have hdm := Nat.div_add_mod x 256
                calc x / 256 * 256 ||| x % 256
                    = 256 * (x / 256) ||| x % 256 := by rw [Nat.mul_comm]
                  _ = 2 ^ 8 * (x / 256) ||| x % 256 := by norm_num
                  _ = 2 ^ 8 * (x / 256) + x % 256 := (hor).symm
                  _ = x := by rw [h256]; omega
              simp only [unflushLoop, if_pos hlt, hshift]
      · have hstep : flushLoop (k + 1) f x = (x, []) := by
          simp [flushLoop, hguard]
        rw [hstep]
        simp

/-- The decode transition inverts the encode transition, for any coder with
`1 ≤ frequencyOf0 < totalFrequency` (shared helper for C2 and C10). -/
theorem decode_encode_transition_aux (c : BinaryRangeANSCoder)
    (hf0 : 1 ≤ c.frequencyOf0) (hf1 : c.frequencyOf0 < c.totalFrequency)
    (x : ℕ) (s : Bool) (hx64 : c.totalFrequency * (x + 1) ≤ 2 ^ 64) :
    c.ComputeDecoderStateTransitionFor (c.ComputeEncoderStateTransitionFor x s) =
      ⟨x, s⟩ := by
  have hT := totalFrequency_eq c
  have hTpos : 0 < 2 ^ c.totalFrequencySpaceBits := by positivity
  have hfs : 0 < c.frequencyOf s := by
    cases s <;> simp [frequencyOf] <;> omega
  have hrlt : x % c.frequencyOf s < c.frequencyOf s := Nat.mod_lt _ hfs
  have hcum : c.cumulativeFrequencyOf s + x % c.frequencyOf s <
      2 ^ c.totalFrequencySpaceBits := by
    rw [← hT]
    cases s <;> simp [cumulativeFrequencyOf, frequencyOf] at hrlt ⊢ <;> omega
  rw [encoderTransition_eq_of_small c hf1 s x hfs hx64]
  simp only [ComputeDecoderStateTransitionFor,
    Nat.shiftRight_eq_div_pow, hT, Nat.and_pow_two_sub_one_eq_mod]
  rw [add_assoc, Nat.mul_add_div hTpos, Nat.mul_add_mod, Nat.div_eq_of_lt hcum,
    Nat.mod_eq_of_lt hcum, add_zero]
  have hdam := Nat.div_add_mod x (c.frequencyOf s)
  cases s
  · have hc : c.cumulativeFrequencyOf false + x % c.frequencyOf false <
        c.cumulativeFrequencyOf true := by
      simpa [cumulativeFrequencyOf, frequencyOf] using hrlt
    rw [if_pos hc]
    simp only [StateAndSymbol.mk.injEq]
    refine ⟨?_, trivial⟩
    simp only [cumulativeFrequencyOf] at *
    omega
  · have hc : ¬ (c.cumulativeFrequencyOf true + x % c.frequencyOf true <
        c.cumulativeFrequencyOf true) := by omega
    rw [if_neg hc]
    simp only [StateAndSymbol.mk.injEq]
    refine ⟨?_, trivial⟩
    simp only [cumulativeFrequencyOf] at *
    omega

/-- **C10 (amended).** The rANS decode transition is a left inverse of the
encode transition for every state at which the source's `uint64`
computation does not overflow (`totalFrequency * (state + 1) ≤ 2^64`
suffices — this covers every state in the coder's working window
`[totalFrequency, 256 * totalFrequency)` for all `R ≤ 56`): for a coder
whose frequencies satisfy the constructor's postcondition
(`1 ≤ frequencyOf0 < totalFrequency`), decoding the encoder transition of
`(x, s)` returns exactly state `x` and symbol `s`.  For larger states the
encode transition wraps modulo `2^64` and the inversion fails — see the
counterexample. -/
theorem decoder_inverts_encoder_transition (c : BinaryRangeANSCoder)
    (hf0 : 1 ≤ c.frequencyOf0) (hf1 : c.frequencyOf0 < c.totalFrequency)
    (x : ℕ) (s : Bool) (hx64 : c.totalFrequency * (x + 1) ≤ 2 ^ 64) :
    c.ComputeDecoderStateTransitionFor (c.ComputeEncoderStateTransitionFor x s) =
      ⟨x, s⟩ :=
  decode_encode_transition_aux c hf0 hf1 x s hx64

/-- Witness for C10 at the coder `construct 128 8`
(`frequencyOf0 = 128`, `totalFrequency = 256`), state `1000`, symbol 1. -/
theorem decoder_inverts_encoder_transition_witness :
    1 ≤ (construct 128 8).frequencyOf0 ∧
    (construct 128 8).frequencyOf0 < (construct 128 8).totalFrequency ∧
    (construct 128 8).totalFrequency * (1000 + 1) ≤ 2 ^ 64 ∧
    (construct 128 8).ComputeDecoderStateTransitionFor
      ((construct 128 8).ComputeEncoderStateTransitionFor 1000 true) = ⟨1000, true⟩ :=
  ⟨by decide, by decide, by decide,
    decoder_inverts_encoder_transition (construct 128 8) (by decide) (by decide)
      1000 true (by decide)⟩

/-- **C10 counterexample.** At the constructor-produced coder with
`R = 23` and `frequencyOf0 = 2^22` (probability one half) and the
representable `uint64` state `x = 2^63` with symbol 0, the encode
transition computes `totalFrequency * quotient = 2^23 * 2^41 = 2^64`,
which wraps to 0 in `uint64`; decoding the wrapped state returns
`(0, 0) ≠ (2^63, 0)`.  The original claim, quantified over every `uint64`
state, is therefore false of the program. -/
theorem rans_encoder_transition_wrap_cex :
    (construct (2 ^ 22) 23).ComputeDecoderStateTransitionFor
      ((construct (2 ^ 22) 23).ComputeEncoderStateTransitionFor (2 ^ 63) false) ≠
      ⟨2 ^ 63, false⟩ := by
  decide

/-- Unflushing from a state at or above `totalFrequency` reads nothing. -/
theorem unflushLoop_of_ge (c : BinaryRangeANSCoder) (x : ℕ)
    (h : c.totalFrequency ≤ x) : ∀ B, unflushLoop c x B = (x, B) := by
  intro B
  cases B with
  | nil => rfl
  | cons p ps => simp only [unflushLoop, if_neg (Nat.not_lt.mpr h)]

/-- `unflushLoop` followed by nothing is idempotent: its result state and
bytes unflush to themselves. -/
theorem unflushLoop_idem (c : BinaryRangeANSCoder) :
    ∀ (bytes : List ℕ) (x : ℕ),
      unflushLoop c (unflushLoop c x bytes).1 (unflushLoop c x bytes).2 =
        unflushLoop c x bytes := by
  intro bytes
  induction bytes with
  | nil => intro x; rfl
  | cons b rest ih =>
      intro x
      by_cases h : x < c.totalFrequency
      · simp only [unflushLoop, if_pos h]
        exact ih _
      · simp only [unflushLoop, if_neg h]

/-- Two decode starting points that unflush to the same state and bytes
decode identically (same output bits, and the final state and bytes also
unflush identically). -/
theorem decodeLoop_unflush_congr (c : BinaryRangeANSCoder) :
    ∀ (n : ℕ) (x x' : ℕ) (B B' : List ℕ),
      unflushLoop c x B = unflushLoop c x' B' →
      (decodeLoop c n B x).1 = (decodeLoop c n B' x').1 ∧
        unflushLoop c (decodeLoop c n B x).2.1 (decodeLoop c n B x).2.2 =
          unflushLoop c (decodeLoop c n B' x').2.1 (decodeLoop c n B' x').2.2 := by
  intro n
  induction n with
  | zero =>
      intro x x' B B' h
      exact ⟨rfl, h⟩
  | succ k ih =>
      intro x x' B B' h
      simp only [decodeLoop, h]
      constructor <;> trivial

/-- Main rANS round-trip lemma, by induction over the message: decoding
`|m|` bits from the bytes encoded for `m` (followed by arbitrary trailing
bytes) starting at the returned final state reproduces `m`, and leaves a
final state and byte rest that unflush as the original pre-encode state
over the trailing bytes. -/
theorem decodeLoop_encodeLoop (c : BinaryRangeANSCoder)
    (hf0 : 1 ≤ c.frequencyOf0) (hf1 : c.frequencyOf0 < c.totalFrequency)
    (hR : c.totalFrequencySpaceBits ≤ 23) :
    ∀ (m : List Bool) (x : ℕ) (tail : List ℕ),
      c.totalFrequency ≤ x → x < 256 * c.totalFrequency →
      (decodeLoop c m.length ((encodeLoop c m x).2 ++ tail) (encodeLoop c m x).1).1 = m ∧
        unflushLoop c
            (decodeLoop c m.length ((encodeLoop c m x).2 ++ tail) (encodeLoop c m x).1).2.1
            (decodeLoop c m.length ((encodeLoop c m x).2 ++ tail) (encodeLoop c m x).1).2.2 =
          unflushLoop c x tail := by
  intro m
  induction m with
  | nil =>
      intro x tail h1 h2
      simp only [encodeLoop, List.nil_append, List.length_nil, decodeLoop]
      constructor <;> trivial
  | cons b rest ih =>
      intro x tail h1 h2
      -- abbreviations for the three stages of the encode step
      obtain ⟨hx1, hx2⟩ := encodeLoop_state_bounds c hf0 hf1 hR rest x h1 h2
      have hfs : 0 < c.frequencyOf b := frequencyOf_pos c hf0 hf1 b
      have hfsT : c.frequencyOf b < c.totalFrequency := frequencyOf_lt c hf0 hf1 b
      have hTsmall : c.totalFrequency ≤ 2 ^ 23 := by
        rw [totalFrequency_eq]
        exact Nat.pow_le_pow_right (by norm_num) hR
      have hfuel : (encodeLoop c rest x).1 < 256 ^ 64 * (256 * c.frequencyOf b) := by
        have ha : 256 * c.totalFrequency ≤ 256 * 2 ^ 23 := Nat.mul_le_mul_left _ hTsmall
        have hb : (256 : ℕ) * 2 ^ 23 ≤ 256 ^ 64 := by norm_num
        have hc : 256 ^ 64 ≤ 256 ^ 64 * (256 * c.frequencyOf b) :=
          Nat.le_mul_of_pos_right _ (by omega)
        omega
      obtain ⟨hfl1, hfl2⟩ := flushLoop_bounds (c.frequencyOf b) 64
        (encodeLoop c rest x).1 hfuel
      have hfle : c.frequencyOf b ≤ (flushLoop 64 (c.frequencyOf b) (encodeLoop c rest x).1).1 :=
        hfl2 (by omega)
      have hx64 : c.totalFrequency *
          ((flushLoop 64 (c.frequencyOf b) (encodeLoop c rest x).1).1 + 1) ≤
          2 ^ 64 := by
        have hxp1 : (flushLoop 64 (c.frequencyOf b) (encodeLoop c rest x).1).1 + 1 ≤
            256 * c.totalFrequency := by omega
        calc c.totalFrequency *
            ((flushLoop 64 (c.frequencyOf b) (encodeLoop c rest x).1).1 + 1)
            ≤ c.totalFrequency * (256 * c.totalFrequency) :=
              Nat.mul_le_mul_left _ hxp1
          _ ≤ 2 ^ 23 * (256 * 2 ^ 23) :=
              Nat.mul_le_mul hTsmall (Nat.mul_le_mul_left _ hTsmall)
          _ ≤ 2 ^ 64 := by norm_num
      obtain ⟨hxf1, hxf2⟩ := encodeTransition_bounds c hf1 b
        (flushLoop 64 (c.frequencyOf b) (encodeLoop c rest x).1).1 hfs hfle hfl1 hx64
      -- the encode step
      have henc : encodeLoop c (b :: rest) x =
          (c.ComputeEncoderStateTransitionFor
              (flushLoop 64 (c.frequencyOf b) (encodeLoop c rest x).1).1 b,
            (flushLoop 64 (c.frequencyOf b) (encodeLoop c rest x).1).2 ++
              (encodeLoop c rest x).2) := rfl
      rw [henc]
      -- first decode iteration: no unflush (state ≥ totalFrequency), then the
      -- inverse transition recovers the post-flush state and the symbol
      have hnoun : ∀ B, unflushLoop c
          (c.ComputeEncoderStateTransitionFor
            (flushLoop 64 (c.frequencyOf b) (encodeLoop c rest x).1).1 b) B =
          (c.ComputeEncoderStateTransitionFor
            (flushLoop 64 (c.frequencyOf b) (encodeLoop c rest x).1).1 b, B) :=
        unflushLoop_of_ge c _ hxf1
      have hinv := decode_encode_transition_aux c hf0 hf1
        (flushLoop 64 (c.frequencyOf b) (encodeLoop c rest x).1).1 b hx64
      simp only [List.length_cons, decodeLoop, hnoun, hinv]
      -- the remaining decode: move the flushed bytes through `unflushLoop`
      have hcong := decodeLoop_unflush_congr c rest.length
        (flushLoop 64 (c.frequencyOf b) (encodeLoop c rest x).1).1
        (encodeLoop c rest x).1
        (((flushLoop 64 (c.frequencyOf b) (encodeLoop c rest x).1).2 ++
            (encodeLoop c rest x).2) ++ tail)
        ((encodeLoop c rest x).2 ++ tail)
        (by
          rw [List.append_assoc]
          exact unflush_flushLoop c (c.frequencyOf b) (by omega) hfsT 64
            (encodeLoop c rest x).1 hfuel (by omega) ((encodeLoop c rest x).2 ++ tail))
      obtain ⟨hih1, hih2⟩ := ih x tail h1 h2
      exact ⟨by rw [hcong.1, hih1], by rw [hcong.2, hih2]⟩

/-- **C2.** rANS round trip: for every coder whose constructor produced
frequencies `1 ≤ frequencyOf0 < totalFrequency = 2^R` with range bit width
`R ≤ 23` (the constructor clips `frequencyOf0` into exactly this range for
every probability, and the spec's `R ∈ [2, 23]` is within `R ≤ 23`), for
every bit message `m`, `Decode` applied to the bytes and final state
returned by `Encode`, with the output array pre-sized to `|m|`, writes
exactly the bits of `m`. -/
theorem rans_round_trip (c : BinaryRangeANSCoder)
    (hf0 : 1 ≤ c.frequencyOf0) (hf1 : c.frequencyOf0 < c.totalFrequency)
    (hR : c.totalFrequencySpaceBits ≤ 23) (m : List Bool) :
    Decode c (Encode c m).2 (Encode c m).1 m.length = m := by
  have hTpos := totalFrequency_pos c
  have := (decodeLoop_encodeLoop c hf0 hf1 hR m c.totalFrequency []
    (le_refl _) (by omega)).1
  simpa [Decode, Encode] using this

/-- Witness for C2: `R = 8`, `frequencyOf0 = 1` (an extreme probability),
message `[1,0,0]`; the encoder flushes two zero bytes that the decoder
never needs to re-read, and the round trip still reproduces the message. -/
theorem rans_round_trip_witness :
    1 ≤ (construct 1 8).frequencyOf0 ∧
    (construct 1 8).frequencyOf0 < (construct 1 8).totalFrequency ∧
    (construct 1 8).totalFrequencySpaceBits ≤ 23 ∧
    Decode (construct 1 8) (Encode (construct 1 8) [true, false, false]).2
      (Encode (construct 1 8) [true, false, false]).1 3 = [true, false, false] := by
  refine ⟨by decide, by decide, by decide, ?_⟩
  exact rans_round_trip (construct 1 8) (by decide) (by decide) (by decide)
    [true, false, false]

/-- **C4 (amended).** The `BinaryRangeANSCoder` constructor performs no
validation and never raises: for every probability argument (abstracted by
its rounded frequency `r`) and every range bit width `R ≥ 1` — including
every `R` outside `[2, 23]` — construction succeeds, producing a coder
with `totalFrequency = 2^R` and `frequencyOf0` clipped into
`[1, 2^R − 1]`. -/
theorem rans_constructor_total (r R : ℕ) (hR : 1 ≤ R) :
    (construct r R).totalFrequency = 2 ^ R ∧
      1 ≤ (construct r R).frequencyOf0 ∧
      (construct r R).frequencyOf0 < 2 ^ R := by
  have h2R : 2 ≤ 2 ^ R := by
    calc (2 : ℕ) = 2 ^ 1 := by norm_num
      _ ≤ 2 ^ R := Nat.pow_le_pow_right (by norm_num) hR
  have hshift : (1 : ℕ) <<< R = 2 ^ R := by rw [Nat.shiftLeft_eq, one_mul]
  refine ⟨?_, ?_, ?_⟩
  · simp [construct, totalFrequency, hshift]
  · simp only [construct, clip, hshift]
    split
    · omega
    · split <;> omega
  · simp only [construct, clip, hshift]
    split
    · omega
    · split <;> omega

/-- Witness for the amended C4, at `R = 30` (outside `[2, 23]`) with the
rounded frequency for `p = 0.5`. -/
theorem rans_constructor_total_witness :
    (construct (2 ^ 29) 30).totalFrequency = 2 ^ 30 ∧
      1 ≤ (construct (2 ^ 29) 30).frequencyOf0 ∧
      (construct (2 ^ 29) 30).frequencyOf0 < 2 ^ 30 :=
  rans_constructor_total (2 ^ 29) 30 (by norm_num)

/-- **Counterexample to C4 as stated.** The claim says construction with a
range bit width outside `[2, 23]` fails with an exceptional error and
produces no usable coder.  In the source the constructor has no check and
no `throw`: at `R = 30` (and the rounded frequency for `p = 0.5`)
construction succeeds, the coder's fields are as documented, and the
instance is fully usable — its `Encode`/`Decode` round-trip a concrete
3-bit message. -/
theorem rans_constructor_no_rejection_cex :
    (construct (2 ^ 29) 30).totalFrequency = 2 ^ 30 ∧
      (construct (2 ^ 29) 30).frequencyOf0 = 2 ^ 29 ∧
      Decode (construct (2 ^ 29) 30)
          (Encode (construct (2 ^ 29) 30) [true, false, true]).2
          (Encode (construct (2 ^ 29) 30) [true, false, true]).1 3 =
        [true, false, true] := by
  refine ⟨by decide, by decide, by decide⟩

/-- After any unflush loop the state is at least `totalFrequency`, unless
the loop stopped because the encoded byte input was exhausted. -/
theorem unflushLoop_post (c : BinaryRangeANSCoder) :
    ∀ (bytes : List ℕ) (state : ℕ),
      c.totalFrequency ≤ (unflushLoop c state bytes).1 ∨
        (unflushLoop c state bytes).2 = [] := by
  intro bytes
  induction bytes with
  | nil => intro state; right; rfl
  | cons b rest ih =>
      intro state
      by_cases h : state < c.totalFrequency
      · simp only [unflushLoop, if_pos h]
        exact ih _
      · simp only [unflushLoop, if_neg h]
        left
        omega

/-- **C6.** rANS state bounds.  Encoder: starting from
`state = totalFrequency`, after every encode step (flush loop followed by
the encode transition) the state is below `totalFrequency * 256` (and at
least `totalFrequency`); the state after step `i` of encoding `m` is the
final state of encoding the suffix `m.drop j`, so the bound is stated over
all suffixes.  Decoder: after every unflush loop the state is at least
`totalFrequency`, unless the encoded byte input is exhausted. -/
theorem rans_state_bounds (c : BinaryRangeANSCoder)
    (hf0 : 1 ≤ c.frequencyOf0) (hf1 : c.frequencyOf0 < c.totalFrequency)
    (hR : c.totalFrequencySpaceBits ≤ 23) :
    (∀ (m : List Bool) (j : ℕ),
      c.totalFrequency ≤ (encodeLoop c (m.drop j) c.totalFrequency).1 ∧
        (encodeLoop c (m.drop j) c.totalFrequency).1 < c.totalFrequency * 256) ∧
    (∀ (state : ℕ) (bytes : List ℕ),
      c.totalFrequency ≤ (unflushLoop c state bytes).1 ∨
        (unflushLoop c state bytes).2 = []) := by
  have hTpos := totalFrequency_pos c
  constructor
  · intro m j
    have := encodeLoop_state_bounds c hf0 hf1 hR (m.drop j) c.totalFrequency
      (le_refl _) (by omega)
    omega
  · exact fun state bytes => unflushLoop_post c bytes state

/-- Witness for C6, at the coder `construct 1 8`, a 2-bit message, and a
decoder unflush from state 3 over one byte. -/
theorem rans_state_bounds_witness :
    (construct 1 8).totalFrequency ≤
        (encodeLoop (construct 1 8) (List.drop 0 [true, false])
          (construct 1 8).totalFrequency).1 ∧
      (encodeLoop (construct 1 8) (List.drop 0 [true, false])
          (construct 1 8).totalFrequency).1 < (construct 1 8).totalFrequency * 256 ∧
      ((construct 1 8).totalFrequency ≤ (unflushLoop (construct 1 8) 3 [7]).1 ∨
        (unflushLoop (construct 1 8) 3 [7]).2 = []) := by
  have h := rans_state_bounds (construct 1 8) (by decide) (by decide) (by decide)
  exact ⟨(h.1 [true, false] 0).1, (h.1 [true, false] 0).2, h.2 3 [7]⟩

theorem length_flatMap_pair {α : Type} (f g : ℕ → α) :
    ∀ n : ℕ, ((List.range n).flatMap fun x => [f x, g x]).length = 2 * n := by
  intro n
  induction n with
  | zero => simp
  | succ k ih =>
      rw [List.range_succ, List.flatMap_append]
      simp only [List.length_append, ih]
      simp
      omega

theorem getD_flatMap_pair {α : Type} (f g : ℕ → α) (d : α) :
    ∀ (n i : ℕ), i < n →
      ((List.range n).flatMap fun x => [f x, g x]).getD (i * 2) d = f i ∧
      ((List.range n).flatMap fun x => [f x, g x]).getD (i * 2 + 1) d = g i := by
  intro n
  induction n with
  | zero => intro i hi; omega
  | succ k ih =>
      intro i hi
      rw [List.range_succ, List.flatMap_append]
      rcases Nat.lt_or_ge i k with h | h
      · have hlen : i * 2 + 1 < ((List.range k).flatMap fun x => [f x, g x]).length := by
          rw [length_flatMap_pair]
          omega
        rw [List.getD_append _ _ _ _ (by omega), List.getD_append _ _ _ _ hlen]
        exact ih i h
      · have hik : i = k := by omega
        subst hik
        have hlen : ((List.range i).flatMap fun x => [f x, g x]).length = 2 * i :=
          length_flatMap_pair f g i
        rw [List.getD_append_right _ _ _ _ (by omega),
          List.getD_append_right _ _ _ _ (by omega), hlen]
        constructor
        · have h0 : i * 2 - 2 * i = 0 := by omega
          rw [h0]
          simp
        · have h1 : i * 2 + 1 - 2 * i = 1 := by omega
          rw [h1]
          simp

theorem getD_map_range {α : Type} (f : ℕ → α) (d : α) :
    ∀ (n i : ℕ), i < n → ((List.range n).map f).getD i d = f i := by
  intro n
  induction n with
  | zero => intro i hi; omega
  | succ k ih =>
      intro i hi
      rw [List.range_succ, List.map_append]
      rcases Nat.lt_or_ge i k with h | h
      · rw [List.getD_append _ _ _ _ (by simpa using h)]
        exact ih i h
      · have hik : i = k := by omega
        subst hik
        rw [List.getD_append_right _ _ _ _ (by simp)]
        simp

/-- **C9.** rANS table equivalence: once the encoder and decoder state
transition tables are generated, for every state `x < totalFrequency * 256`
and each symbol, the table lookups return exactly the computed
transitions (same state, and for the decoder also the same symbol). -/
theorem table_lookup_eq_compute (c : BinaryRangeANSCoder) (x : ℕ) (s : Bool)
    (hx : x < c.totalFrequency * 256) :
    LookupEncoderStateTransitionFor (GenerateEncoderStateTransitionTable c) x s =
        c.ComputeEncoderStateTransitionFor x s ∧
      LookupDecoderStateTransitionFor (GenerateDecoderStateTransitionTable c) x =
        c.ComputeDecoderStateTransitionFor x := by
  constructor
  · cases s
    · have := (getD_flatMap_pair (fun v => c.ComputeEncoderStateTransitionFor v false)
        (fun v => c.ComputeEncoderStateTransitionFor v true) 0
        (c.totalFrequency * 256) x hx).1
      simpa [LookupEncoderStateTransitionFor, GenerateEncoderStateTransitionTable]
        using this
    · have := (getD_flatMap_pair (fun v => c.ComputeEncoderStateTransitionFor v false)
        (fun v => c.ComputeEncoderStateTransitionFor v true) 0
        (c.totalFrequency * 256) x hx).2
      simpa [LookupEncoderStateTransitionFor, GenerateEncoderStateTransitionTable]
        using this
  · have := getD_map_range (fun v => c.ComputeDecoderStateTransitionFor v)
      ⟨0, false⟩ (c.totalFrequency * 256) x hx
    simpa [LookupDecoderStateTransitionFor, GenerateDecoderStateTransitionTable]
      using this

/-- Witness for C9, at the coder `construct 3 2` (`totalFrequency = 4`,
tables of 1024 states) and state 1000. -/
theorem table_lookup_eq_compute_witness :
    LookupEncoderStateTransitionFor
        (GenerateEncoderStateTransitionTable (construct 3 2)) 1000 true =
      (construct 3 2).ComputeEncoderStateTransitionFor 1000 true ∧
    LookupDecoderStateTransitionFor
        (GenerateDecoderStateTransitionTable (construct 3 2)) 1000 =
      (construct 3 2).ComputeDecoderStateTransitionFor 1000 :=
  table_lookup_eq_compute (construct 3 2) 1000 true (by decide)

end BinaryRangeANSCoder

/-! ## `BinaryArithmeticCoder` (file `src/include/BinaryRangeANSCoder.h`,
the 32-bit fixed-point version at the claims' cited lines 230–478)

Binary arithmetic coder over the integer range `[0, 2^32)`, with E1/E2/E3
renormalization and pending bits.  The clipped `double` probability enters
only through the `FastUint32MultiplicationByFraction` multiplier
`M = ⌊probabilityOf0 · 2^32⌋`; since `probabilityOf0` is clipped into
`[10⁻⁹, 1 − 10⁻⁹]`, every reachable multiplier satisfies `4 ≤ M < 2^32`,
and the development is parameterized by any such `M`.

The `uint32_t` interval endpoints `low`/`high` are modelled over `ℕ`
without truncation: the monitors below (proved always true for
`4 ≤ M < 2^32`) certify that no operation on them ever reaches `2^32`, so
the untruncated model agrees with the `uint32_t` source.  The decoder's
`value` register CAN wrap on adversarial input, so its operations carry
explicit `uint32` truncation (`u32`/`u32sub`). -/

/-- `uint32` subtraction (wrapping), for a reduced minuend and a subtrahend
at most `2^32`. -/
def u32sub (a b : ℕ) : ℕ := (a + (2 ^ 32 - b)) % 2 ^ 32

namespace BinaryArithmeticCoder

/-- `totalRangeBitWidth = 32`. -/
def totalRangeBitWidth : ℕ := 32

/-- `lowest = 0`. -/
def lowest : ℕ := 0

/-- `highest = 1ULL << totalRangeBitWidth`. -/
def highest : ℕ := 1 <<< totalRangeBitWidth

/-- `quarterRange = highest / 4`. -/
def quarterRange : ℕ := highest / 4

/-- `halfRange = highest / 2`. -/
def halfRange : ℕ := highest / 2

/-- `threeQuartersRange = highest - quarterRange`. -/
def threeQuartersRange : ℕ := highest - quarterRange

theorem highest_eq : highest = 2 ^ 32 := by
  norm_num [highest, totalRangeBitWidth, Nat.shiftLeft_eq]

theorem quarterRange_eq : quarterRange = 2 ^ 30 := by
  norm_num [quarterRange, highest_eq]

theorem halfRange_eq : halfRange = 2 ^ 31 := by
  norm_num [halfRange, highest_eq]

theorem threeQuartersRange_eq : threeQuartersRange = 3 * 2 ^ 30 := by
  norm_num [threeQuartersRange, highest_eq, quarterRange_eq]

/-- Encoder state: the current interval, the pending-bit count, and a
ghost monitor `ok` that records, at every point of the run, that the
interval is proper (`low < high`, i.e. `low ≤ high` and `high − low > 0`)
and that each renormalization operation taken produces its exact value
below `2^32` (no `uint32` wraparound). -/
structure EncState where
  low : ℕ
  high : ℕ
  pendingBitCount : ℕ
  ok : Bool
deriving DecidableEq, Repr

/-- The E1 case body of the encoder's renormalization loop: scale the
interval up (`low *= 2; high *= 2`), resetting the pending count (the
pending bits are emitted by the caller).  The monitor records that the
interval was proper and that both doublings stay below `2^32`. -/
def encE1 (s : EncState) : EncState :=
  ⟨s.low * 2, s.high * 2, 0,
    s.ok && decide (s.low < s.high) &&
      decide (s.low * 2 < 2 ^ 32) && decide (s.high * 2 < 2 ^ 32)⟩

/-- The E2 case body: shift by `halfRange` and scale up. -/
def encE2 (s : EncState) : EncState :=
  ⟨(s.low - halfRange) * 2, (s.high - halfRange) * 2, 0,
    s.ok && decide (s.low < s.high) && decide (halfRange ≤ s.high) &&
      decide ((s.low - halfRange) * 2 < 2 ^ 32) &&
      decide ((s.high - halfRange) * 2 < 2 ^ 32)⟩

/-- The E3 case body: shift by `quarterRange`, scale up, and defer one more
pending bit. -/
def encE3 (s : EncState) : EncState :=
  ⟨(s.low - quarterRange) * 2, (s.high - quarterRange) * 2, s.pendingBitCount + 1,
    s.ok && decide (s.low < s.high) && decide (quarterRange ≤ s.high) &&
      decide ((s.low - quarterRange) * 2 < 2 ^ 32) &&
      decide ((s.high - quarterRange) * 2 < 2 ^ 32)⟩

/-- The encoder's renormalization loop (fuel-bounded; the source loop is
unbounded, and fuel 33 is proved sufficient and stable below).  Returns
the new state and the bits emitted, in order: for E1/E2 a definitive bit
followed by the pending bits with the opposite value. -/
def renormalizeEnc : ℕ → EncState → EncState × List Bool
  | 0, s => (s, [])
  | fuel + 1, s =>
    if s.high < halfRange then
      let r := renormalizeEnc fuel (encE1 s)
      (r.1, (false :: List.replicate s.pendingBitCount true) ++ r.2)
    else if halfRange ≤ s.low then
      let r := renormalizeEnc fuel (encE2 s)
      (r.1, (true :: List.replicate s.pendingBitCount false) ++ r.2)
    else if quarterRange ≤ s.low ∧ s.high < threeQuartersRange then
      renormalizeEnc fuel (encE3 s)
    else
      ({ s with ok := s.ok && decide (s.low < s.high) }, [])

/-- The narrowing step: the boundary between the sub-intervals for 0 and 1,
computed with the fixed-point multiplier for `probabilityOf0`.  The chosen
interval is `[low, boundary)` for bit 0 and `[boundary, high)` for bit 1.
(The `uint32` additions cannot wrap for `M < 2^32`: the boundary is at
most `high`.) -/
def narrow (M low high : ℕ) (bit : Bool) : ℕ × ℕ :=
  let intervalLength := high - low
  let lowerSubintervalLength :=
    FastUint32MultiplicationByFraction.Multiply ⟨M⟩ intervalLength
  let boundary := low + lowerSubintervalLength
  if bit then (boundary, high) else (low, boundary)

/-- `Encode`'s per-bit loop plus finalization.  Each message bit narrows
the interval and runs the renormalization loop; at the end of the message,
finalization emits one definitive bit (0 iff `low < quarterRange`)
followed by `pendingBitCount + 1` bits of the opposite value.  Returns all
emitted bits in order, and the final state (for the `ok` monitor). -/
def encodeLoop (M fuel : ℕ) : List Bool → EncState → List Bool × EncState
  | [], s =>
    (if s.low < quarterRange then false :: List.replicate (s.pendingBitCount + 1) true
     else true :: List.replicate (s.pendingBitCount + 1) false, s)
  | b :: rest, s =>
    let lh := narrow M s.low s.high b
    let r := renormalizeEnc fuel ⟨lh.1, lh.2, s.pendingBitCount, s.ok⟩
    let r2 := encodeLoop M fuel rest r.1
    (r.2 ++ r2.1, r2.2)

/-- `Encode`: initial interval `[lowest, highest − 1]`, no pending bits. -/
def Encode (M fuel : ℕ) (inputBits : List Bool) : List Bool × EncState :=
  encodeLoop M fuel inputBits ⟨lowest, highest - 1, 0, true⟩

/-- Decoder state: interval, `value` register, the unread encoded bits,
and the two ghost monitors (`okInterval` for the interval endpoints,
`okValue` for the `value` register operations). -/
structure DecState where
  low : ℕ
  high : ℕ
  value : ℕ
  input : List Bool
  okInterval : Bool
  okValue : Bool
deriving DecidableEq, Repr

/-- Read the next encoded bit into the least-significant (zero) bit of the
value register (`value |= ReadBitAt(readPosition++)`); reads nothing when
the input is exhausted. -/
def readBitInto (value : ℕ) (input : List Bool) : ℕ × List Bool :=
  match input with
  | [] => (value, [])
  | b :: rest => (value ||| (if b then 1 else 0), rest)

/-- The E1 case body of the decoder's renormalization loop: the interval
update of `encE1`, the `uint32` doubling of the value register, and one
encoded bit read into its least-significant bit. -/
def decE1 (s : DecState) : DecState :=
  ⟨s.low * 2, s.high * 2,
    (readBitInto (u32 (s.value * 2)) s.input).1,
    (readBitInto (u32 (s.value * 2)) s.input).2,
    s.okInterval && decide (s.low < s.high) &&
      decide (s.low * 2 < 2 ^ 32) && decide (s.high * 2 < 2 ^ 32),
    s.okValue && decide (s.value * 2 < 2 ^ 32)⟩

/-- The E2 case body for the decoder. -/
def decE2 (s : DecState) : DecState :=
  ⟨(s.low - halfRange) * 2, (s.high - halfRange) * 2,
    (readBitInto (u32 (u32sub s.value halfRange * 2)) s.input).1,
    (readBitInto (u32 (u32sub s.value halfRange * 2)) s.input).2,
    s.okInterval && decide (s.low < s.high) && decide (halfRange ≤ s.high) &&
      decide ((s.low - halfRange) * 2 < 2 ^ 32) &&
      decide ((s.high - halfRange) * 2 < 2 ^ 32),
    s.okValue && decide (halfRange ≤ s.value) &&
      decide ((s.value - halfRange) * 2 < 2 ^ 32)⟩

/-- The E3 case body for the decoder. -/
def decE3 (s : DecState) : DecState :=
  ⟨(s.low - quarterRange) * 2, (s.high - quarterRange) * 2,
    (readBitInto (u32 (u32sub s.value quarterRange * 2)) s.input).1,
    (readBitInto (u32 (u32sub s.value quarterRange * 2)) s.input).2,
    s.okInterval && decide (s.low < s.high) && decide (quarterRange ≤ s.high) &&
      decide ((s.low - quarterRange) * 2 < 2 ^ 32) &&
      decide ((s.high - quarterRange) * 2 < 2 ^ 32),
    s.okValue && decide (quarterRange ≤ s.value) &&
      decide ((s.value - quarterRange) * 2 < 2 ^ 32)⟩

/-- The decoder's renormalization loop, mirroring the encoder's cases on
the same interval, also shifting the `value` register and reading one
encoded bit per iteration.  The `value` operations are `uint32`-wrapping
(`u32`, `u32sub`), since adversarial input can make them wrap. -/
def renormalizeDec : ℕ → DecState → DecState
  | 0, s => s
  | fuel + 1, s =>
    if s.high < halfRange then renormalizeDec fuel (decE1 s)
    else if halfRange ≤ s.low then renormalizeDec fuel (decE2 s)
    else if quarterRange ≤ s.low ∧ s.high < threeQuartersRange then
      renormalizeDec fuel (decE3 s)
    else
      { s with okInterval := s.okInterval && decide (s.low < s.high) }

/-- `Decode`'s per-output-bit loop: compute the boundary exactly as the
encoder does, emit 0 and keep `[low, boundary)` if `value < boundary`,
else emit 1 and keep `[boundary, high)`; then renormalize. -/
def decodeLoop (M fuel : ℕ) : ℕ → DecState → List Bool × DecState
  | 0, s => ([], s)
  | n + 1, s =>
    let intervalLength := s.high - s.low
    let lowerSubintervalLength :=
      FastUint32MultiplicationByFraction.Multiply ⟨M⟩ intervalLength
    let boundary := s.low + lowerSubintervalLength
    if s.value < boundary then
      let r := decodeLoop M fuel n (renormalizeDec fuel { s with high := boundary })
      (false :: r.1, r.2)
    else
      let r := decodeLoop M fuel n (renormalizeDec fuel { s with low := boundary })
      (true :: r.1, r.2)

/-- The decoder's `value` initialization: shift the first
`min(inputBitLength, 32)` encoded bits MSB-first into `value`
(`value *= 2; value |= bit`), then left-shift to pad with zeros.  At most
32 bits enter, so the register stays below `2^32` (the outer `u32` also
covers the C++ shift-by-32 edge at empty input, where `value` is 0). -/
def initValue (inputBits : List Bool) : ℕ :=
  let initialBitCount := min 32 inputBits.length
  u32 ((List.foldl (fun v b => v * 2 ||| (if b then 1 else 0)) 0
    (inputBits.take initialBitCount)) <<< (32 - initialBitCount))

/-- `Decode`: initial interval `[lowest, highest − 1]`, `value` filled from
the first 32 encoded bits, then `outputBitLength` decode iterations. -/
def Decode (M fuel : ℕ) (inputBits : List Bool) (outputBitLength : ℕ) :
    List Bool × DecState :=
  decodeLoop M fuel outputBitLength
    ⟨lowest, highest - 1, initValue inputBits,
      inputBits.drop (min 32 inputBits.length), true, true⟩

end BinaryArithmeticCoder

namespace BinaryArithmeticCoder

/-- The fixed-point multiply, in division form, for in-range arguments. -/
theorem Multiply_eq_div (M x : ℕ) (hx : x < 2 ^ 32) (hM : M ≤ 2 ^ 32) :
    FastUint32MultiplicationByFraction.Multiply ⟨M⟩ x = x * M / 2 ^ 32 := by
  unfold FastUint32MultiplicationByFraction.Multiply
  rw [u32_eq_of_lt hx]
  simp only [Nat.shiftRight_eq_div_pow]
  apply u32_eq_of_lt
  have h1 : x * M ≤ x * 2 ^ 32 := Nat.mul_le_mul_left x hM
  have h2 : x * M / 2 ^ 32 ≤ x * 2 ^ 32 / 2 ^ 32 := Nat.div_le_div_right h1
  rw [Nat.mul_div_cancel x (by norm_num)] at h2
  omega

/-- `uint32` subtraction is exact subtraction when it does not underflow. -/
theorem u32sub_eq {a b : ℕ} (hba : b ≤ a) (ha : a < 2 ^ 32) (hb : b ≤ 2 ^ 32) :
    u32sub a b = a - b := by
  unfold u32sub
  have h1 : a + (2 ^ 32 - b) = 2 ^ 32 + (a - b) := by omega
  rw [h1]
  omega

/-- The loop-exit condition of both renormalization loops: none of the
E1/E2/E3 cases applies.  Equivalently, the interval straddles `halfRange`
and is not contained in the middle half. -/
def IsNormal (low high : ℕ) : Prop :=
  halfRange ≤ high ∧ low < halfRange ∧
    (low < quarterRange ∨ threeQuartersRange ≤ high)

theorem IsNormal.lt {low high : ℕ} (h : IsNormal low high) : low < high :=
  lt_of_lt_of_le h.2.1 h.1

theorem IsNormal.length {low high : ℕ} (h : IsNormal low high) :
    quarterRange + 1 ≤ high - low := by
  obtain ⟨h1, h2, h3⟩ := h
  rw [halfRange_eq] at h1 h2
  rw [quarterRange_eq] at h3 ⊢
  rw [threeQuartersRange_eq] at h3
  omega

theorem narrow_false (M l h : ℕ) :
    narrow M l h false =
      (l, l + FastUint32MultiplicationByFraction.Multiply ⟨M⟩ (h - l)) := rfl

theorem narrow_true (M l h : ℕ) :
    narrow M l h true =
      (l + FastUint32MultiplicationByFraction.Multiply ⟨M⟩ (h - l), h) := rfl

/-- The boundary is strictly inside the interval: from a normalized
interval, with a multiplier `4 ≤ M < 2^32`, the lower sub-interval length
is in `[1, length − 1]`. -/
theorem boundary_strict (M l h : ℕ) (hM4 : 4 ≤ M) (hM32 : M < 2 ^ 32)
    (hN : IsNormal l h) (hh : h ≤ 2 ^ 32 - 1) :
    l < l + FastUint32MultiplicationByFraction.Multiply ⟨M⟩ (h - l) ∧
      l + FastUint32MultiplicationByFraction.Multiply ⟨M⟩ (h - l) < h := by
  have hlen := hN.length
  have hlh := hN.lt
  have hlen32 : h - l < 2 ^ 32 := by omega
  rw [Multiply_eq_div M (h - l) hlen32 (by omega)]
  have hlow : 1 ≤ (h - l) * M / 2 ^ 32 := by
    rw [Nat.le_div_iff_mul_le (by norm_num)]
    have : (2 ^ 30 + 1) * 4 ≤ (h - l) * M := by
      apply Nat.mul_le_mul
      · rw [quarterRange_eq] at hlen; omega
      · exact hM4
    omega
  have hup : (h - l) * M / 2 ^ 32 < h - l := by
    rw [Nat.div_lt_iff_lt_mul (by norm_num)]
    have : (h - l) * M < (h - l) * 2 ^ 32 :=
      Nat.mul_lt_mul_of_le_of_lt (le_refl _) hM32 (by omega)
    omega
  omega

theorem renormalizeEnc_succ_E1 (fuel : ℕ) (s : EncState) (h1 : s.high < halfRange) :
    renormalizeEnc (fuel + 1) s =
      ((renormalizeEnc fuel (encE1 s)).1,
        (false :: List.replicate s.pendingBitCount true) ++
          (renormalizeEnc fuel (encE1 s)).2) := by
  simp only [renormalizeEnc, if_pos h1]

theorem renormalizeEnc_succ_E2 (fuel : ℕ) (s : EncState)
    (h1 : ¬ s.high < halfRange) (h2 : halfRange ≤ s.low) :
    renormalizeEnc (fuel + 1) s =
      ((renormalizeEnc fuel (encE2 s)).1,
        (true :: List.replicate s.pendingBitCount false) ++
          (renormalizeEnc fuel (encE2 s)).2) := by
  simp only [renormalizeEnc, if_neg h1, if_pos h2]

theorem renormalizeEnc_succ_E3 (fuel : ℕ) (s : EncState)
    (h1 : ¬ s.high < halfRange) (h2 : ¬ halfRange ≤ s.low)
    (h3 : quarterRange ≤ s.low ∧ s.high < threeQuartersRange) :
    renormalizeEnc (fuel + 1) s = renormalizeEnc fuel (encE3 s) := by
  simp only [renormalizeEnc, if_neg h1, if_neg h2, if_pos h3]

theorem renormalizeEnc_succ_exit (fuel : ℕ) (s : EncState)
    (h1 : ¬ s.high < halfRange) (h2 : ¬ halfRange ≤ s.low)
    (h3 : ¬ (quarterRange ≤ s.low ∧ s.high < threeQuartersRange)) :
    renormalizeEnc (fuel + 1) s =
      ({ s with ok := s.ok && decide (s.low < s.high) }, []) := by
  simp only [renormalizeEnc, if_neg h1, if_neg h2, if_neg h3]

theorem renormalizeDec_succ_E1 (fuel : ℕ) (s : DecState) (h1 : s.high < halfRange) :
    renormalizeDec (fuel + 1) s = renormalizeDec fuel (decE1 s) := by
  simp only [renormalizeDec, if_pos h1]

theorem renormalizeDec_succ_E2 (fuel : ℕ) (s : DecState)
    (h1 : ¬ s.high < halfRange) (h2 : halfRange ≤ s.low) :
    renormalizeDec (fuel + 1) s = renormalizeDec fuel (decE2 s) := by
  simp only [renormalizeDec, if_neg h1, if_pos h2]

theorem renormalizeDec_succ_E3 (fuel : ℕ) (s : DecState)
    (h1 : ¬ s.high < halfRange) (h2 : ¬ halfRange ≤ s.low)
    (h3 : quarterRange ≤ s.low ∧ s.high < threeQuartersRange) :
    renormalizeDec (fuel + 1) s = renormalizeDec fuel (decE3 s) := by
  simp only [renormalizeDec, if_neg h1, if_neg h2, if_pos h3]

theorem renormalizeDec_succ_exit (fuel : ℕ) (s : DecState)
    (h1 : ¬ s.high < halfRange) (h2 : ¬ halfRange ≤ s.low)
    (h3 : ¬ (quarterRange ≤ s.low ∧ s.high < threeQuartersRange)) :
    renormalizeDec (fuel + 1) s =
      { s with okInterval := s.okInterval && decide (s.low < s.high) } := by
  simp only [renormalizeDec, if_neg h1, if_neg h2, if_neg h3]


theorem renormalizeEnc_exit : ∀ (fuel : ℕ) (s : EncState),
    s.low < s.high → s.high ≤ 2 ^ 32 - 1 →
    halfRange ≤ (s.high - s.low) * 2 ^ fuel →
    (IsNormal (renormalizeEnc fuel s).1.low (renormalizeEnc fuel s).1.high ∧
      (renormalizeEnc fuel s).1.high ≤ 2 ^ 32 - 1) ∧
    ∀ k, renormalizeEnc (fuel + k) s = renormalizeEnc fuel s := by
  intro fuel
  induction fuel with
  | zero =>
      intro s hlh hhb hlen
      rw [pow_zero, mul_one, halfRange_eq] at hlen
      have h1 : ¬ s.high < halfRange := by rw [halfRange_eq]; omega
      have h2 : ¬ halfRange ≤ s.low := by rw [halfRange_eq]; omega
      have h3 : ¬ (quarterRange ≤ s.low ∧ s.high < threeQuartersRange) := by
        rw [quarterRange_eq, threeQuartersRange_eq]
        omega
      refine ⟨⟨?_, ?_⟩, ?_⟩
      · show IsNormal s.low s.high
        refine ⟨?_, ?_, ?_⟩
        · rw [halfRange_eq]; omega
        · rw [halfRange_eq]; omega
        · rw [quarterRange_eq, threeQuartersRange_eq]
          rw [quarterRange_eq, threeQuartersRange_eq] at h3
          omega
      · show s.high ≤ 2 ^ 32 - 1
        exact hhb
      · intro k
        cases k with
        | zero => rfl
        | succ j =>
            rw [Nat.zero_add, renormalizeEnc_succ_exit j s h1 h2 h3]
            have hok : (s.ok && decide (s.low < s.high)) = s.ok := by
              simp [hlh]
            rw [hok]
            rfl
  | succ f ih =>
      intro s hlh hhb hlen
      by_cases h1 : s.high < halfRange
      · have hl1 : (encE1 s).low < (encE1 s).high := by simp only [encE1]; omega
        have hh1 : (encE1 s).high ≤ 2 ^ 32 - 1 := by
          simp only [encE1]
          rw [halfRange_eq] at h1
          omega
        have hlen1 : halfRange ≤ ((encE1 s).high - (encE1 s).low) * 2 ^ f := by
          simp only [encE1]
          have hsub : s.high * 2 - s.low * 2 = (s.high - s.low) * 2 := by omega
          have he : (s.high * 2 - s.low * 2) * 2 ^ f = (s.high - s.low) * 2 ^ (f + 1) := by
            rw [hsub, pow_succ]
            ring
          rw [he]
          exact hlen
        obtain ⟨hex, hstab⟩ := ih (encE1 s) hl1 hh1 hlen1
        rw [renormalizeEnc_succ_E1 f s h1]
        refine ⟨hex, ?_⟩
        intro k
        have hadd : f + 1 + k = (f + k) + 1 := by omega
        rw [hadd, renormalizeEnc_succ_E1 (f + k) s h1, hstab k]
      · by_cases h2 : halfRange ≤ s.low
        · have hl1 : (encE2 s).low < (encE2 s).high := by
            simp only [encE2]
            omega
          have hh1 : (encE2 s).high ≤ 2 ^ 32 - 1 := by
            simp only [encE2]
            rw [halfRange_eq] at h2 ⊢
            omega
          have hlen1 : halfRange ≤ ((encE2 s).high - (encE2 s).low) * 2 ^ f := by
            simp only [encE2]
            have hge : halfRange ≤ s.high := by omega
            have he : ((s.high - halfRange) * 2 - (s.low - halfRange) * 2) * 2 ^ f =
                (s.high - s.low) * 2 ^ (f + 1) := by
              rw [pow_succ]
              have : (s.high - halfRange) * 2 - (s.low - halfRange) * 2 =
                  (s.high - s.low) * 2 := by omega
              rw [this]
              ring
            rw [he]
            exact hlen
          obtain ⟨hex, hstab⟩ := ih (encE2 s) hl1 hh1 hlen1
          rw [renormalizeEnc_succ_E2 f s h1 h2]
          refine ⟨hex, ?_⟩
          intro k
          have hadd : f + 1 + k = (f + k) + 1 := by omega
          rw [hadd, renormalizeEnc_succ_E2 (f + k) s h1 h2, hstab k]
        · by_cases h3 : quarterRange ≤ s.low ∧ s.high < threeQuartersRange
          · have hl1 : (encE3 s).low < (encE3 s).high := by
              simp only [encE3]
              obtain ⟨h3a, h3b⟩ := h3
              omega
            have hh1 : (encE3 s).high ≤ 2 ^ 32 - 1 := by
              simp only [encE3]
              obtain ⟨h3a, h3b⟩ := h3
              rw [quarterRange_eq] at h3a ⊢
              rw [threeQuartersRange_eq] at h3b
              omega
            have hlen1 : halfRange ≤ ((encE3 s).high - (encE3 s).low) * 2 ^ f := by
              simp only [encE3]
              obtain ⟨h3a, h3b⟩ := h3
              have he : ((s.high - quarterRange) * 2 - (s.low - quarterRange) * 2) * 2 ^ f =
                  (s.high - s.low) * 2 ^ (f + 1) := by
                rw [pow_succ]
                have hq : quarterRange ≤ s.high := by omega
                have : (s.high - quarterRange) * 2 - (s.low - quarterRange) * 2 =
                    (s.high - s.low) * 2 := by omega
                rw [this]
                ring
              rw [he]
              exact hlen
            obtain ⟨hex, hstab⟩ := ih (encE3 s) hl1 hh1 hlen1
            rw [renormalizeEnc_succ_E3 f s h1 h2 h3]
            refine ⟨hex, ?_⟩
            intro k
            have hadd : f + 1 + k = (f + k) + 1 := by omega
            rw [hadd, renormalizeEnc_succ_E3 (f + k) s h1 h2 h3, hstab k]
          · rw [renormalizeEnc_succ_exit f s h1 h2 h3]
            refine ⟨⟨?_, ?_⟩, ?_⟩
            · show IsNormal s.low s.high
              refine ⟨by omega, by omega, ?_⟩
              rcases Nat.lt_or_ge s.low quarterRange with h | h
              · exact Or.inl h
              · right
                push_neg at h3
                exact h3 h
            · show s.high ≤ 2 ^ 32 - 1
              exact hhb
            · intro k
              have hadd : f + 1 + k = (f + k) + 1 := by omega
              rw [hadd, renormalizeEnc_succ_exit (f + k) s h1 h2 h3]

theorem renormalizeDec_exit : ∀ (fuel : ℕ) (s : DecState),
    s.low < s.high → s.high ≤ 2 ^ 32 - 1 →
    halfRange ≤ (s.high - s.low) * 2 ^ fuel →
    (IsNormal (renormalizeDec fuel s).low (renormalizeDec fuel s).high ∧
      (renormalizeDec fuel s).high ≤ 2 ^ 32 - 1) ∧
    ∀ k, renormalizeDec (fuel + k) s = renormalizeDec fuel s := by
  intro fuel
  induction fuel with
  | zero =>
      intro s hlh hhb hlen
      rw [pow_zero, mul_one, halfRange_eq] at hlen
      have h1 : ¬ s.high < halfRange := by rw [halfRange_eq]; omega
      have h2 : ¬ halfRange ≤ s.low := by rw [halfRange_eq]; omega
      have h3 : ¬ (quarterRange ≤ s.low ∧ s.high < threeQuartersRange) := by
        rw [quarterRange_eq, threeQuartersRange_eq]
        omega
      refine ⟨⟨?_, ?_⟩, ?_⟩
      · show IsNormal s.low s.high
        refine ⟨?_, ?_, ?_⟩
        · rw [halfRange_eq]; omega
        · rw [halfRange_eq]; omega
        · rw [quarterRange_eq, threeQuartersRange_eq]
          rw [quarterRange_eq, threeQuartersRange_eq] at h3
          omega
      · show s.high ≤ 2 ^ 32 - 1
        exact hhb
      · intro k
        cases k with
        | zero => rfl
        | succ j =>
            rw [Nat.zero_add, renormalizeDec_succ_exit j s h1 h2 h3]
            have hok : (s.okInterval && decide (s.low < s.high)) = s.okInterval := by
              simp [hlh]
            rw [hok]
            rfl
  | succ f ih =>
      intro s hlh hhb hlen
      by_cases h1 : s.high < halfRange
      · have hl1 : (decE1 s).low < (decE1 s).high := by simp only [decE1]; omega
        have hh1 : (decE1 s).high ≤ 2 ^ 32 - 1 := by
          simp only [decE1]
          rw [halfRange_eq] at h1
          omega
        have hlen1 : halfRange ≤ ((decE1 s).high - (decE1 s).low) * 2 ^ f := by
          simp only [decE1]
          have hsub : s.high * 2 - s.low * 2 = (s.high - s.low) * 2 := by omega
          have he : (s.high * 2 - s.low * 2) * 2 ^ f = (s.high - s.low) * 2 ^ (f + 1) := by
            rw [hsub, pow_succ]
            ring
          rw [he]
          exact hlen
        obtain ⟨hex, hstab⟩ := ih (decE1 s) hl1 hh1 hlen1
        rw [renormalizeDec_succ_E1 f s h1]
        refine ⟨hex, ?_⟩
        intro k
        have hadd : f + 1 + k = (f + k) + 1 := by omega
        rw [hadd, renormalizeDec_succ_E1 (f + k) s h1, hstab k]
      · by_cases h2 : halfRange ≤ s.low
        · have hl1 : (decE2 s).low < (decE2 s).high := by
            simp only [decE2]
            omega
          have hh1 : (decE2 s).high ≤ 2 ^ 32 - 1 := by
            simp only [decE2]
            rw [halfRange_eq] at h2 ⊢
            omega
          have hlen1 : halfRange ≤ ((decE2 s).high - (decE2 s).low) * 2 ^ f := by
            simp only [decE2]
            have hge : halfRange ≤ s.high := by omega
            have he : ((s.high - halfRange) * 2 - (s.low - halfRange) * 2) * 2 ^ f =
                (s.high - s.low) * 2 ^ (f + 1) := by
              rw [pow_succ]
              have : (s.high - halfRange) * 2 - (s.low - halfRange) * 2 =
                  (s.high - s.low) * 2 := by omega
              rw [this]
              ring
            rw [he]
            exact hlen
          obtain ⟨hex, hstab⟩ := ih (decE2 s) hl1 hh1 hlen1
          rw [renormalizeDec_succ_E2 f s h1 h2]
          refine ⟨hex, ?_⟩
          intro k
          have hadd : f + 1 + k = (f + k) + 1 := by omega
          rw [hadd, renormalizeDec_succ_E2 (f + k) s h1 h2, hstab k]
        · by_cases h3 : quarterRange ≤ s.low ∧ s.high < threeQuartersRange
          · have hl1 : (decE3 s).low < (decE3 s).high := by
              simp only [decE3]
              obtain ⟨h3a, h3b⟩ := h3
              omega
            have hh1 : (decE3 s).high ≤ 2 ^ 32 - 1 := by
              simp only [decE3]
              obtain ⟨h3a, h3b⟩ := h3
              rw [quarterRange_eq] at h3a ⊢
              rw [threeQuartersRange_eq] at h3b
              omega
            have hlen1 : halfRange ≤ ((decE3 s).high - (decE3 s).low) * 2 ^ f := by
              simp only [decE3]
              obtain ⟨h3a, h3b⟩ := h3
              have he : ((s.high - quarterRange) * 2 - (s.low - quarterRange) * 2) * 2 ^ f =
                  (s.high - s.low) * 2 ^ (f + 1) := by
                rw [pow_succ]
                have hq : quarterRange ≤ s.high := by omega
                have : (s.high - quarterRange) * 2 - (s.low - quarterRange) * 2 =
                    (s.high - s.low) * 2 := by omega
                rw [this]
                ring
              rw [he]
              exact hlen
            obtain ⟨hex, hstab⟩ := ih (decE3 s) hl1 hh1 hlen1
            rw [renormalizeDec_succ_E3 f s h1 h2 h3]
            refine ⟨hex, ?_⟩
            intro k
            have hadd : f + 1 + k = (f + k) + 1 := by omega
            rw [hadd, renormalizeDec_succ_E3 (f + k) s h1 h2 h3, hstab k]
          · rw [renormalizeDec_succ_exit f s h1 h2 h3]
            refine ⟨⟨?_, ?_⟩, ?_⟩
            · show IsNormal s.low s.high
              refine ⟨by omega, by omega, ?_⟩
              rcases Nat.lt_or_ge s.low quarterRange with h | h
              · exact Or.inl h
              · right
                push_neg at h3
                exact h3 h
            · show s.high ≤ 2 ^ 32 - 1
              exact hhb
            · intro k
              have hadd : f + 1 + k = (f + k) + 1 := by omega
              rw [hadd, renormalizeDec_succ_exit (f + k) s h1 h2 h3]


theorem renormalizeEnc_ok : ∀ (fuel : ℕ) (s : EncState),
    s.low < s.high → s.high ≤ 2 ^ 32 - 1 → s.ok = true →
    (renormalizeEnc fuel s).1.ok = true := by
  intro fuel
  induction fuel with
  | zero => intro s hlh hhb hok; exact hok
  | succ f ih =>
      intro s hlh hhb hok
      by_cases h1 : s.high < halfRange
      · rw [renormalizeEnc_succ_E1 f s h1]
        have ha : s.low * 2 < 2 ^ 32 := by rw [halfRange_eq] at h1; omega
        have hb : s.high * 2 < 2 ^ 32 := by rw [halfRange_eq] at h1; omega
        refine ih (encE1 s) (by simp only [encE1]; omega) ?_ ?_
        · simp only [encE1]; omega
        · simp only [encE1, Bool.and_eq_true, decide_eq_true_eq]
          exact ⟨⟨⟨hok, hlh⟩, ha⟩, hb⟩
      · by_cases h2 : halfRange ≤ s.low
        · rw [renormalizeEnc_succ_E2 f s h1 h2]
          have hhge : halfRange ≤ s.high := by omega
          have ha : (s.low - halfRange) * 2 < 2 ^ 32 := by
            rw [halfRange_eq] at h2 ⊢; omega
          have hb : (s.high - halfRange) * 2 < 2 ^ 32 := by
            rw [halfRange_eq] at hhge ⊢; omega
          refine ih (encE2 s) (by simp only [encE2]; omega) ?_ ?_
          · simp only [encE2]
            rw [halfRange_eq] at hhge ⊢
            omega
          · simp only [encE2, Bool.and_eq_true, decide_eq_true_eq]
            exact ⟨⟨⟨⟨hok, hlh⟩, hhge⟩, ha⟩, hb⟩
        · by_cases h3 : quarterRange ≤ s.low ∧ s.high < threeQuartersRange
          · rw [renormalizeEnc_succ_E3 f s h1 h2 h3]
            obtain ⟨h3a, h3b⟩ := h3
            have hqh : quarterRange ≤ s.high := by omega
            have ha : (s.low - quarterRange) * 2 < 2 ^ 32 := by
              rw [quarterRange_eq] at h3a ⊢
              rw [halfRange_eq] at h2
              omega
            have hb : (s.high - quarterRange) * 2 < 2 ^ 32 := by
              rw [quarterRange_eq] at hqh ⊢
              rw [threeQuartersRange_eq] at h3b
              omega
            refine ih (encE3 s) (by simp only [encE3]; omega) ?_ ?_
            · simp only [encE3]
              rw [quarterRange_eq] at hqh ⊢
              rw [threeQuartersRange_eq] at h3b
              omega
            · simp only [encE3, Bool.and_eq_true, decide_eq_true_eq]
              exact ⟨⟨⟨⟨hok, hlh⟩, hqh⟩, ha⟩, hb⟩
          · rw [renormalizeEnc_succ_exit f s h1 h2 h3]
            show (s.ok && decide (s.low < s.high)) = true
            rw [hok]
            simp [hlh]

theorem renormalizeDec_okInterval : ∀ (fuel : ℕ) (s : DecState),
    s.low < s.high → s.high ≤ 2 ^ 32 - 1 → s.okInterval = true →
    (renormalizeDec fuel s).okInterval = true := by
  intro fuel
  induction fuel with
  | zero => intro s hlh hhb hok; exact hok
  | succ f ih =>
      intro s hlh hhb hok
      by_cases h1 : s.high < halfRange
      · rw [renormalizeDec_succ_E1 f s h1]
        have ha : s.low * 2 < 2 ^ 32 := by rw [halfRange_eq] at h1; omega
        have hb : s.high * 2 < 2 ^ 32 := by rw [halfRange_eq] at h1; omega
        refine ih (decE1 s) (by simp only [decE1]; omega) ?_ ?_
        · simp only [decE1]; omega
        · simp only [decE1, Bool.and_eq_true, decide_eq_true_eq]
          exact ⟨⟨⟨hok, hlh⟩, ha⟩, hb⟩
      · by_cases h2 : halfRange ≤ s.low
        · rw [renormalizeDec_succ_E2 f s h1 h2]
          have hhge : halfRange ≤ s.high := by omega
          have ha : (s.low - halfRange) * 2 < 2 ^ 32 := by
            rw [halfRange_eq] at h2 ⊢; omega
          have hb : (s.high - halfRange) * 2 < 2 ^ 32 := by
            rw [halfRange_eq] at hhge ⊢; omega
          refine ih (decE2 s) (by simp only [decE2]; omega) ?_ ?_
          · simp only [decE2]
            rw [halfRange_eq] at hhge ⊢
            omega
          · simp only [decE2, Bool.and_eq_true, decide_eq_true_eq]
            exact ⟨⟨⟨⟨hok, hlh⟩, hhge⟩, ha⟩, hb⟩
        · by_cases h3 : quarterRange ≤ s.low ∧ s.high < threeQuartersRange
          · rw [renormalizeDec_succ_E3 f s h1 h2 h3]
            obtain ⟨h3a, h3b⟩ := h3
            have hqh : quarterRange ≤ s.high := by omega
            have ha : (s.low - quarterRange) * 2 < 2 ^ 32 := by
              rw [quarterRange_eq] at h3a ⊢
              rw [halfRange_eq] at h2
              omega
            have hb : (s.high - quarterRange) * 2 < 2 ^ 32 := by
              rw [quarterRange_eq] at hqh ⊢
              rw [threeQuartersRange_eq] at h3b
              omega
            refine ih (decE3 s) (by simp only [decE3]; omega) ?_ ?_
            · simp only [decE3]
              rw [quarterRange_eq] at hqh ⊢
              rw [threeQuartersRange_eq] at h3b
              omega
            · simp only [decE3, Bool.and_eq_true, decide_eq_true_eq]
              exact ⟨⟨⟨⟨hok, hlh⟩, hqh⟩, ha⟩, hb⟩
          · rw [renormalizeDec_succ_exit f s h1 h2 h3]
            show (s.okInterval && decide (s.low < s.high)) = true
            rw [hok]
            simp [hlh]

/-- Both narrowed intervals sit strictly inside the normalized interval. -/
theorem narrow_state (M l h : ℕ) (b : Bool) (hM4 : 4 ≤ M) (hM32 : M < 2 ^ 32)
    (hN : IsNormal l h) (hh : h ≤ 2 ^ 32 - 1) :
    l ≤ (narrow M l h b).1 ∧ (narrow M l h b).1 < (narrow M l h b).2 ∧
      (narrow M l h b).2 ≤ h := by
  obtain ⟨hb1, hb2⟩ := boundary_strict M l h hM4 hM32 hN hh
  cases b
  · rw [narrow_false]
    exact ⟨le_refl _, hb1, le_of_lt hb2⟩
  · rw [narrow_true]
    exact ⟨le_of_lt hb1, hb2, le_refl _⟩

theorem encodeLoop_cons (M fuel : ℕ) (b : Bool) (rest : List Bool) (s : EncState) :
    encodeLoop M fuel (b :: rest) s =
      ((renormalizeEnc fuel ⟨(narrow M s.low s.high b).1, (narrow M s.low s.high b).2,
          s.pendingBitCount, s.ok⟩).2 ++
        (encodeLoop M fuel rest (renormalizeEnc fuel ⟨(narrow M s.low s.high b).1,
          (narrow M s.low s.high b).2, s.pendingBitCount, s.ok⟩).1).1,
       (encodeLoop M fuel rest (renormalizeEnc fuel ⟨(narrow M s.low s.high b).1,
          (narrow M s.low s.high b).2, s.pendingBitCount, s.ok⟩).1).2) := rfl

/-- Fuel 33 always suffices to renormalize a proper interval: the length
at least doubles each iteration. -/
theorem renorm_fuel_ge (l h : ℕ) (hlh : l < h) : halfRange ≤ (h - l) * 2 ^ 33 := by
  rw [halfRange_eq]
  have h1 : 1 ≤ h - l := by omega
  calc (2 : ℕ) ^ 31 ≤ 2 ^ 33 := by norm_num
    _ = 1 * 2 ^ 33 := (one_mul _).symm
    _ ≤ (h - l) * 2 ^ 33 := Nat.mul_le_mul_right _ h1

/-- Monitor truth and fuel stability for the encoder loop. -/
theorem encodeLoop_master (M : ℕ) (hM4 : 4 ≤ M) (hM32 : M < 2 ^ 32) :
    ∀ (m : List Bool) (s : EncState), IsNormal s.low s.high → s.high ≤ 2 ^ 32 - 1 →
      (s.ok = true → (encodeLoop M 33 m s).2.ok = true) ∧
      (∀ fuel, 33 ≤ fuel → encodeLoop M fuel m s = encodeLoop M 33 m s) := by
  intro m
  induction m with
  | nil =>
      intro s hN hhb
      exact ⟨fun hok => hok, fun fuel hfuel => rfl⟩
  | cons b rest ih =>
      intro s hN hhb
      obtain ⟨hn1, hn2, hn3⟩ := narrow_state M s.low s.high b hM4 hM32 hN hhb
      have hh1 : (narrow M s.low s.high b).2 ≤ 2 ^ 32 - 1 := by omega
      have hfge := renorm_fuel_ge (narrow M s.low s.high b).1 (narrow M s.low s.high b).2 hn2
      obtain ⟨⟨hex, hexb⟩, hstab⟩ := renormalizeEnc_exit 33
        ⟨(narrow M s.low s.high b).1, (narrow M s.low s.high b).2, s.pendingBitCount, s.ok⟩
        hn2 hh1 hfge
      obtain ⟨ihok, ihstab⟩ := ih (renormalizeEnc 33 ⟨(narrow M s.low s.high b).1,
        (narrow M s.low s.high b).2, s.pendingBitCount, s.ok⟩).1 hex hexb
      constructor
      · intro hok
        rw [encodeLoop_cons]
        exact ihok (renormalizeEnc_ok 33 _ hn2 hh1 hok)
      · intro fuel hfuel
        have hnconv : renormalizeEnc fuel ⟨(narrow M s.low s.high b).1,
            (narrow M s.low s.high b).2, s.pendingBitCount, s.ok⟩ =
            renormalizeEnc 33 ⟨(narrow M s.low s.high b).1,
              (narrow M s.low s.high b).2, s.pendingBitCount, s.ok⟩ := by
          have := hstab (fuel - 33)
          have heq : 33 + (fuel - 33) = fuel := by omega
          rw [heq] at this
          exact this
        rw [encodeLoop_cons, encodeLoop_cons, hnconv,
          ihstab fuel hfuel]


theorem decodeLoop_succ_lt (M fuel n : ℕ) (s : DecState)
    (h : s.value < s.low +
      FastUint32MultiplicationByFraction.Multiply ⟨M⟩ (s.high - s.low)) :
    decodeLoop M fuel (n + 1) s =
      (false :: (decodeLoop M fuel n (renormalizeDec fuel
          { s with high := s.low +
            FastUint32MultiplicationByFraction.Multiply ⟨M⟩ (s.high - s.low) })).1,
       (decodeLoop M fuel n (renormalizeDec fuel
          { s with high := s.low +
            FastUint32MultiplicationByFraction.Multiply ⟨M⟩ (s.high - s.low) })).2) := by
  simp only [decodeLoop, if_pos h]

theorem decodeLoop_succ_ge (M fuel n : ℕ) (s : DecState)
    (h : ¬ s.value < s.low +
      FastUint32MultiplicationByFraction.Multiply ⟨M⟩ (s.high - s.low)) :
    decodeLoop M fuel (n + 1) s =
      (true :: (decodeLoop M fuel n (renormalizeDec fuel
          { s with low := s.low +
            FastUint32MultiplicationByFraction.Multiply ⟨M⟩ (s.high - s.low) })).1,
       (decodeLoop M fuel n (renormalizeDec fuel
          { s with low := s.low +
            FastUint32MultiplicationByFraction.Multiply ⟨M⟩ (s.high - s.low) })).2) := by
  simp only [decodeLoop, if_neg h]

/-- The decode loop emits exactly one output bit per iteration. -/
theorem decodeLoop_length (M fuel : ℕ) : ∀ (n : ℕ) (s : DecState),
    (decodeLoop M fuel n s).1.length = n := by
  intro n
  induction n with
  | zero => intro s; rfl
  | succ k ih =>
      intro s
      by_cases h : s.value < s.low +
        FastUint32MultiplicationByFraction.Multiply ⟨M⟩ (s.high - s.low)
      · rw [decodeLoop_succ_lt M fuel k s h]
        simp [ih]
      · rw [decodeLoop_succ_ge M fuel k s h]
        simp [ih]

/-- Monitor truth and fuel stability for the decoder loop. -/
theorem decodeLoop_master (M : ℕ) (hM4 : 4 ≤ M) (hM32 : M < 2 ^ 32) :
    ∀ (n : ℕ) (s : DecState), IsNormal s.low s.high → s.high ≤ 2 ^ 32 - 1 →
      (s.okInterval = true → (decodeLoop M 33 n s).2.okInterval = true) ∧
      (∀ fuel, 33 ≤ fuel → decodeLoop M fuel n s = decodeLoop M 33 n s) := by
  intro n
  induction n with
  | zero =>
      intro s hN hhb
      exact ⟨fun hok => hok, fun fuel hfuel => rfl⟩
  | succ k ih =>
      intro s hN hhb
      obtain ⟨hb1, hb2⟩ := boundary_strict M s.low s.high hM4 hM32 hN hhb
      by_cases h : s.value < s.low +
        FastUint32MultiplicationByFraction.Multiply ⟨M⟩ (s.high - s.low)
      · have hlh1 : ({ s with high := s.low +
            FastUint32MultiplicationByFraction.Multiply ⟨M⟩ (s.high - s.low) } :
              DecState).low < ({ s with high := s.low +
            FastUint32MultiplicationByFraction.Multiply ⟨M⟩ (s.high - s.low) } :
              DecState).high := hb1
        have hhb1 : ({ s with high := s.low +
            FastUint32MultiplicationByFraction.Multiply ⟨M⟩ (s.high - s.low) } :
              DecState).high ≤ 2 ^ 32 - 1 := by
          show s.low + FastUint32MultiplicationByFraction.Multiply ⟨M⟩
            (s.high - s.low) ≤ 2 ^ 32 - 1
          omega
        have hfge := renorm_fuel_ge _ _ hlh1
        obtain ⟨⟨hex, hexb⟩, hstab⟩ := renormalizeDec_exit 33 _ hlh1 hhb1 hfge
        obtain ⟨ihok, ihstab⟩ := ih (renormalizeDec 33 { s with high := s.low + FastUint32MultiplicationByFraction.Multiply ⟨M⟩ (s.high - s.low) }) hex hexb
        constructor
        · intro hok
          rw [decodeLoop_succ_lt M 33 k s h]
          exact ihok (renormalizeDec_okInterval 33 _ hlh1 hhb1 hok)
        · intro fuel hfuel
          have hnconv : renormalizeDec fuel { s with high := s.low +
              FastUint32MultiplicationByFraction.Multiply ⟨M⟩ (s.high - s.low) } =
              renormalizeDec 33 { s with high := s.low +
              FastUint32MultiplicationByFraction.Multiply ⟨M⟩ (s.high - s.low) } := by
            have hst := hstab (fuel - 33)
            have heq : 33 + (fuel - 33) = fuel := by omega
            rw [heq] at hst
            exact hst
          rw [decodeLoop_succ_lt M fuel k s h, decodeLoop_succ_lt M 33 k s h,
            hnconv, ihstab fuel hfuel]
      · have hlh1 : ({ s with low := s.low +
            FastUint32MultiplicationByFraction.Multiply ⟨M⟩ (s.high - s.low) } :
              DecState).low < ({ s with low := s.low +
            FastUint32MultiplicationByFraction.Multiply ⟨M⟩ (s.high - s.low) } :
              DecState).high := hb2
        have hhb1 : ({ s with low := s.low +
            FastUint32MultiplicationByFraction.Multiply ⟨M⟩ (s.high - s.low) } :
              DecState).high ≤ 2 ^ 32 - 1 := hhb
        have hfge := renorm_fuel_ge _ _ hlh1
        obtain ⟨⟨hex, hexb⟩, hstab⟩ := renormalizeDec_exit 33 _ hlh1 hhb1 hfge
        obtain ⟨ihok, ihstab⟩ := ih (renormalizeDec 33 { s with low := s.low + FastUint32MultiplicationByFraction.Multiply ⟨M⟩ (s.high - s.low) }) hex hexb
        constructor
        · intro hok
          rw [decodeLoop_succ_ge M 33 k s h]
          exact ihok (renormalizeDec_okInterval 33 _ hlh1 hhb1 hok)
        · intro fuel hfuel
          have hnconv : renormalizeDec fuel { s with low := s.low +
              FastUint32MultiplicationByFraction.Multiply ⟨M⟩ (s.high - s.low) } =
              renormalizeDec 33 { s with low := s.low +
              FastUint32MultiplicationByFraction.Multiply ⟨M⟩ (s.high - s.low) } := by
            have hst := hstab (fuel - 33)
            have heq : 33 + (fuel - 33) = fuel := by omega
            rw [heq] at hst
            exact hst
          rw [decodeLoop_succ_ge M fuel k s h, decodeLoop_succ_ge M 33 k s h,
            hnconv, ihstab fuel hfuel]


/-- The value in `[0, 1)` denoted by a bit list read as a binary fraction
(most significant bit first). -/
def bitsFrac : List Bool → ℚ
  | [] => 0
  | b :: rest => ((if b then 1 else 0) + bitsFrac rest) / 2

theorem bitsFrac_nil : bitsFrac [] = 0 := rfl

theorem bitsFrac_cons (b : Bool) (u : List Bool) :
    bitsFrac (b :: u) = ((if b then 1 else 0) + bitsFrac u) / 2 := rfl

theorem bitsFrac_nonneg : ∀ u : List Bool, 0 ≤ bitsFrac u := by
  intro u
  induction u with
  | nil => exact le_refl 0
  | cons b r ih =>
      rw [bitsFrac_cons]
      have hb : (0 : ℚ) ≤ (if b then 1 else 0) := by cases b <;> norm_num
      positivity

theorem bitsFrac_lt_one : ∀ u : List Bool, bitsFrac u < 1 := by
  intro u
  induction u with
  | nil => norm_num [bitsFrac_nil]
  | cons b r ih =>
      rw [bitsFrac_cons]
      have hb : (if b then (1 : ℚ) else 0) ≤ 1 := by cases b <;> norm_num
      rw [div_lt_one (by norm_num : (0:ℚ) < 2)]
      linarith

theorem bitsFrac_append : ∀ (u v : List Bool),
    bitsFrac (u ++ v) = bitsFrac u + bitsFrac v / 2 ^ u.length := by
  intro u
  induction u with
  | nil => intro v; simp [bitsFrac_nil]
  | cons b r ih =>
      intro v
      rw [List.cons_append, bitsFrac_cons, bitsFrac_cons, ih v, List.length_cons,
        pow_succ]
      have h2 : (2 : ℚ) ^ r.length ≠ 0 := by positivity
      cases b
      · norm_num
        field_simp
        ring
      · norm_num
        field_simp
        ring

theorem bitsFrac_replicate_true : ∀ n : ℕ,
    bitsFrac (List.replicate n true) = 1 - 1 / 2 ^ n := by
  intro n
  induction n with
  | zero => norm_num [List.replicate, bitsFrac_nil]
  | succ k ih =>
      rw [List.replicate_succ, bitsFrac_cons, ih, pow_succ]
      have h2 : (2 : ℚ) ^ k ≠ 0 := by positivity
      field_simp
      ring

theorem bitsFrac_replicate_false : ∀ n : ℕ,
    bitsFrac (List.replicate n false) = 0 := by
  intro n
  induction n with
  | zero => rfl
  | succ k ih => rw [List.replicate_succ, bitsFrac_cons, ih]; norm_num

/-- The position encoded by the remaining output stream, expressed in the
encoder's current coordinate frame, for a stream fraction `F` and
`p` pending bits: each pending bit doubled the frame around `halfRange`. -/
def frameVal (F : ℚ) (p : ℕ) : ℚ :=
  2 ^ 32 * (2 ^ p * F) - 2 ^ 31 * (2 ^ p - 1)

theorem frameVal_zero (F : ℚ) : frameVal F 0 = 2 ^ 32 * F := by
  unfold frameVal; ring

/-- Emitting a definitive 0 plus `p` pending 1s rescales the frame as E1
does: the entry-frame value is half the exit-frame value. -/
theorem frameVal_E1 (p : ℕ) (t : List Bool) :
    frameVal (bitsFrac (false :: (List.replicate p true ++ t))) p =
      2 ^ 31 * bitsFrac t := by
  rw [bitsFrac_cons, bitsFrac_append, bitsFrac_replicate_true,
    List.length_replicate]
  unfold frameVal
  have h2 : (2 : ℚ) ^ p ≠ 0 := by positivity
  field_simp
  ring

/-- Emitting a definitive 1 plus `p` pending 0s rescales the frame as E2
does. -/
theorem frameVal_E2 (p : ℕ) (t : List Bool) :
    frameVal (bitsFrac (true :: (List.replicate p false ++ t))) p =
      2 ^ 31 * bitsFrac t + 2 ^ 31 := by
  rw [bitsFrac_cons, bitsFrac_append, bitsFrac_replicate_false,
    List.length_replicate]
  unfold frameVal
  have h2 : (2 : ℚ) ^ p ≠ 0 := by positivity
  field_simp
  ring

/-- Deferring one more pending bit (E3) maps the frame value through
`x ↦ 2(x − quarterRange)`. -/
theorem frameVal_E3 (F : ℚ) (p : ℕ) :
    frameVal F (p + 1) = 2 * (frameVal F p - 2 ^ 30) := by
  unfold frameVal
  rw [pow_succ]
  ring

/-- Finalization, `low < quarterRange` branch: the emitted tail denotes
exactly `quarterRange` in the final frame. -/
theorem frameVal_finalize_low (p : ℕ) :
    frameVal (bitsFrac (false :: List.replicate (p + 1) true)) p = 2 ^ 30 := by
  rw [bitsFrac_cons, bitsFrac_replicate_true]
  unfold frameVal
  have h2 : (2 : ℚ) ^ p ≠ 0 := by positivity
  rw [pow_succ]
  field_simp
  ring

/-- Finalization, `low ≥ quarterRange` branch: the emitted tail denotes
exactly `halfRange` in the final frame. -/
theorem frameVal_finalize_high (p : ℕ) :
    frameVal (bitsFrac (true :: List.replicate (p + 1) false)) p = 2 ^ 31 := by
  rw [bitsFrac_cons, bitsFrac_replicate_false]
  unfold frameVal
  norm_num
  ring


/-- Backward containment through the encoder's renormalization loop: if the
frame value of the remaining stream lies in the exit interval (in the exit
frame), then prepending the loop's output keeps the entry-frame value in
the entry interval. -/
theorem renormalizeEnc_back : ∀ (fuel : ℕ) (s : EncState) (u : List Bool),
    s.low < s.high → s.high ≤ 2 ^ 32 - 1 →
    (((renormalizeEnc fuel s).1.low : ℚ) ≤
        frameVal (bitsFrac u) (renormalizeEnc fuel s).1.pendingBitCount ∧
      frameVal (bitsFrac u) (renormalizeEnc fuel s).1.pendingBitCount <
        (renormalizeEnc fuel s).1.high) →
    ((s.low : ℚ) ≤ frameVal (bitsFrac ((renormalizeEnc fuel s).2 ++ u))
        s.pendingBitCount ∧
      frameVal (bitsFrac ((renormalizeEnc fuel s).2 ++ u)) s.pendingBitCount <
        s.high) := by
  intro fuel
  induction fuel with
  | zero =>
      intro s u hlh hhb hexit
      simpa [renormalizeEnc] using hexit
  | succ f ih =>
      intro s u hlh hhb hexit
      by_cases h1 : s.high < halfRange
      · have hlh1 : (encE1 s).low < (encE1 s).high := by simp only [encE1]; omega
        have hhb1 : (encE1 s).high ≤ 2 ^ 32 - 1 := by
          simp only [encE1]; rw [halfRange_eq] at h1; omega
        have hexit1 : ((renormalizeEnc f (encE1 s)).1.low : ℚ) ≤
            frameVal (bitsFrac u) (renormalizeEnc f (encE1 s)).1.pendingBitCount ∧
            frameVal (bitsFrac u) (renormalizeEnc f (encE1 s)).1.pendingBitCount <
              (renormalizeEnc f (encE1 s)).1.high := by
          rw [renormalizeEnc_succ_E1 f s h1] at hexit
          exact hexit
        have hih := ih (encE1 s) u hlh1 hhb1 hexit1
        have hihl : ((s.low * 2 : ℕ) : ℚ) ≤
            frameVal (bitsFrac ((renormalizeEnc f (encE1 s)).2 ++ u)) 0 := hih.1
        have hihr : frameVal (bitsFrac ((renormalizeEnc f (encE1 s)).2 ++ u)) 0 <
            ((s.high * 2 : ℕ) : ℚ) := hih.2
        rw [frameVal_zero] at hihl hihr
        have hstream : (renormalizeEnc (f + 1) s).2 =
            (false :: List.replicate s.pendingBitCount true) ++
              (renormalizeEnc f (encE1 s)).2 := by
          rw [renormalizeEnc_succ_E1 f s h1]
        rw [hstream, List.append_assoc, List.cons_append, frameVal_E1]
        have hcl : ((s.low * 2 : ℕ) : ℚ) = 2 * (s.low : ℚ) := by push_cast; ring
        have hch : ((s.high * 2 : ℕ) : ℚ) = 2 * (s.high : ℚ) := by push_cast; ring
        rw [hcl] at hihl
        rw [hch] at hihr
        have hrw : (2 : ℚ) ^ 32 * bitsFrac ((renormalizeEnc f (encE1 s)).2 ++ u) =
            2 * (2 ^ 31 * bitsFrac ((renormalizeEnc f (encE1 s)).2 ++ u)) := by
          ring
        rw [hrw] at hihl hihr
        constructor
        · linarith
        · linarith
      · by_cases h2 : halfRange ≤ s.low
        · have hhge : halfRange ≤ s.high := by omega
          have hlh1 : (encE2 s).low < (encE2 s).high := by
            simp only [encE2]; omega
          have hhb1 : (encE2 s).high ≤ 2 ^ 32 - 1 := by
            simp only [encE2]; rw [halfRange_eq] at hhge ⊢; omega
          have hexit1 : ((renormalizeEnc f (encE2 s)).1.low : ℚ) ≤
              frameVal (bitsFrac u) (renormalizeEnc f (encE2 s)).1.pendingBitCount ∧
              frameVal (bitsFrac u) (renormalizeEnc f (encE2 s)).1.pendingBitCount <
                (renormalizeEnc f (encE2 s)).1.high := by
            rw [renormalizeEnc_succ_E2 f s h1 h2] at hexit
            exact hexit
          have hih := ih (encE2 s) u hlh1 hhb1 hexit1
          have hihl : (((s.low - halfRange) * 2 : ℕ) : ℚ) ≤
              frameVal (bitsFrac ((renormalizeEnc f (encE2 s)).2 ++ u)) 0 := hih.1
          have hihr : frameVal (bitsFrac ((renormalizeEnc f (encE2 s)).2 ++ u)) 0 <
              (((s.high - halfRange) * 2 : ℕ) : ℚ) := hih.2
          rw [frameVal_zero] at hihl hihr
          have hstream : (renormalizeEnc (f + 1) s).2 =
              (true :: List.replicate s.pendingBitCount false) ++
                (renormalizeEnc f (encE2 s)).2 := by
            rw [renormalizeEnc_succ_E2 f s h1 h2]
          rw [hstream, List.append_assoc, List.cons_append, frameVal_E2]
          have hcln : ((s.low - halfRange) * 2 : ℕ) + 2 ^ 32 = s.low * 2 := by
            rw [halfRange_eq] at h2 ⊢; omega
          have hclq : (((s.low - halfRange) * 2 : ℕ) : ℚ) + 2 ^ 32 =
              ((s.low * 2 : ℕ) : ℚ) := by exact_mod_cast hcln
          have hchn : ((s.high - halfRange) * 2 : ℕ) + 2 ^ 32 = s.high * 2 := by
            rw [halfRange_eq] at hhge ⊢; omega
          have hchq : (((s.high - halfRange) * 2 : ℕ) : ℚ) + 2 ^ 32 =
              ((s.high * 2 : ℕ) : ℚ) := by exact_mod_cast hchn
          have hcl : ((s.low * 2 : ℕ) : ℚ) = 2 * (s.low : ℚ) := by push_cast; ring
          have hch : ((s.high * 2 : ℕ) : ℚ) = 2 * (s.high : ℚ) := by
            push_cast; ring
          have hrw : (2 : ℚ) ^ 32 * bitsFrac ((renormalizeEnc f (encE2 s)).2 ++ u) =
              2 * (2 ^ 31 * bitsFrac ((renormalizeEnc f (encE2 s)).2 ++ u)) := by
            ring
          have hnum : (2 : ℚ) ^ 32 = 2 * 2 ^ 31 := by norm_num
          rw [hrw] at hihl hihr
          rw [hcl] at hclq
          rw [hch] at hchq
          constructor
          · linarith
          · linarith
        · by_cases h3 : quarterRange ≤ s.low ∧ s.high < threeQuartersRange
          · obtain ⟨h3a, h3b⟩ := h3
            have hqh : quarterRange ≤ s.high := by
              rw [quarterRange_eq]; rw [halfRange_eq] at h1; omega
            have hlh1 : (encE3 s).low < (encE3 s).high := by
              simp only [encE3]; omega
            have hhb1 : (encE3 s).high ≤ 2 ^ 32 - 1 := by
              simp only [encE3]
              rw [quarterRange_eq] at hqh ⊢
              rw [threeQuartersRange_eq] at h3b
              omega
            have hexit1 : ((renormalizeEnc f (encE3 s)).1.low : ℚ) ≤
                frameVal (bitsFrac u) (renormalizeEnc f (encE3 s)).1.pendingBitCount ∧
                frameVal (bitsFrac u) (renormalizeEnc f (encE3 s)).1.pendingBitCount <
                  (renormalizeEnc f (encE3 s)).1.high := by
              rw [renormalizeEnc_succ_E3 f s h1 h2 ⟨h3a, h3b⟩] at hexit
              exact hexit
            have hih := ih (encE3 s) u hlh1 hhb1 hexit1
            have hihl : (((s.low - quarterRange) * 2 : ℕ) : ℚ) ≤
                frameVal (bitsFrac ((renormalizeEnc f (encE3 s)).2 ++ u))
                  (s.pendingBitCount + 1) := hih.1
            have hihr : frameVal (bitsFrac ((renormalizeEnc f (encE3 s)).2 ++ u))
                  (s.pendingBitCount + 1) <
                (((s.high - quarterRange) * 2 : ℕ) : ℚ) := hih.2
            rw [frameVal_E3] at hihl hihr
            have hstream : (renormalizeEnc (f + 1) s).2 =
                (renormalizeEnc f (encE3 s)).2 := by
              rw [renormalizeEnc_succ_E3 f s h1 h2 ⟨h3a, h3b⟩]
            rw [hstream]
            have hcln : ((s.low - quarterRange) * 2 : ℕ) + 2 ^ 31 = s.low * 2 := by
              rw [quarterRange_eq] at h3a ⊢; omega
            have hclq : (((s.low - quarterRange) * 2 : ℕ) : ℚ) + 2 ^ 31 =
                ((s.low * 2 : ℕ) : ℚ) := by exact_mod_cast hcln
            have hchn : ((s.high - quarterRange) * 2 : ℕ) + 2 ^ 31 =
                s.high * 2 := by
              rw [quarterRange_eq] at hqh ⊢; omega
            have hchq : (((s.high - quarterRange) * 2 : ℕ) : ℚ) + 2 ^ 31 =
                ((s.high * 2 : ℕ) : ℚ) := by exact_mod_cast hchn
            have hcl : ((s.low * 2 : ℕ) : ℚ) = 2 * (s.low : ℚ) := by
              push_cast; ring
            have hch : ((s.high * 2 : ℕ) : ℚ) = 2 * (s.high : ℚ) := by
              push_cast; ring
            have hnum : (2 : ℚ) ^ 31 = 2 * 2 ^ 30 := by norm_num
            rw [hcl] at hclq
            rw [hch] at hchq
            constructor
            · linarith
            · linarith
          · have hexit1 : ((s.low : ℚ)) ≤ frameVal (bitsFrac u) s.pendingBitCount ∧
                frameVal (bitsFrac u) s.pendingBitCount < (s.high : ℚ) := by
              rw [renormalizeEnc_succ_exit f s h1 h2 h3] at hexit
              exact hexit
            have hstream : (renormalizeEnc (f + 1) s).2 = [] := by
              rw [renormalizeEnc_succ_exit f s h1 h2 h3]
            rw [hstream, List.nil_append]
            exact hexit1


theorem encodeLoop_nil (M fuel : ℕ) (s : EncState) :
    encodeLoop M fuel [] s =
      (if s.low < quarterRange then
        false :: List.replicate (s.pendingBitCount + 1) true
       else true :: List.replicate (s.pendingBitCount + 1) false, s) := rfl

/-- Containment: the encoder builds its output stream precisely so that the
stream's frame value lies inside the interval at every loop top. -/
theorem encodeLoop_contains (M : ℕ) (hM4 : 4 ≤ M) (hM32 : M < 2 ^ 32) :
    ∀ (m : List Bool) (s : EncState), IsNormal s.low s.high → s.high ≤ 2 ^ 32 - 1 →
      ((s.low : ℚ) ≤ frameVal (bitsFrac (encodeLoop M 33 m s).1) s.pendingBitCount ∧
        frameVal (bitsFrac (encodeLoop M 33 m s).1) s.pendingBitCount <
          (s.high : ℚ)) := by
  intro m
  induction m with
  | nil =>
      intro s hN hhb
      by_cases h : s.low < quarterRange
      · have hout : (encodeLoop M 33 ([] : List Bool) s).1 =
            false :: List.replicate (s.pendingBitCount + 1) true := by
          rw [encodeLoop_nil, if_pos h]
        rw [hout, frameVal_finalize_low]
        constructor
        · have hle : s.low ≤ 2 ^ 30 := by rw [quarterRange_eq] at h; omega
          exact_mod_cast hle
        · have hlt : 2 ^ 30 < s.high := by
            have hh := hN.1; rw [halfRange_eq] at hh; omega
          exact_mod_cast hlt
      · have hout : (encodeLoop M 33 ([] : List Bool) s).1 =
            true :: List.replicate (s.pendingBitCount + 1) false := by
          rw [encodeLoop_nil, if_neg h]
        rw [hout, frameVal_finalize_high]
        constructor
        · have hle : s.low ≤ 2 ^ 31 := by
            have hh := hN.2.1; rw [halfRange_eq] at hh; omega
          exact_mod_cast hle
        · have h3 : threeQuartersRange ≤ s.high := by
            rcases hN.2.2 with hc | hc
            · exact absurd hc h
            · exact hc
          have hlt : 2 ^ 31 < s.high := by
            rw [threeQuartersRange_eq] at h3; omega
          exact_mod_cast hlt
  | cons b rest ih =>
      intro s hN hhb
      obtain ⟨hn1, hn2, hn3⟩ := narrow_state M s.low s.high b hM4 hM32 hN hhb
      have hh1 : (narrow M s.low s.high b).2 ≤ 2 ^ 32 - 1 := by omega
      have hfge := renorm_fuel_ge (narrow M s.low s.high b).1
        (narrow M s.low s.high b).2 hn2
      obtain ⟨⟨hex, hexb⟩, hstab⟩ := renormalizeEnc_exit 33
        ⟨(narrow M s.low s.high b).1, (narrow M s.low s.high b).2,
          s.pendingBitCount, s.ok⟩ hn2 hh1 hfge
      have hih := ih (renormalizeEnc 33 ⟨(narrow M s.low s.high b).1,
        (narrow M s.low s.high b).2, s.pendingBitCount, s.ok⟩).1 hex hexb
      have hback := renormalizeEnc_back 33 ⟨(narrow M s.low s.high b).1,
        (narrow M s.low s.high b).2, s.pendingBitCount, s.ok⟩
        (encodeLoop M 33 rest (renormalizeEnc 33 ⟨(narrow M s.low s.high b).1,
          (narrow M s.low s.high b).2, s.pendingBitCount, s.ok⟩).1).1
        hn2 hh1 hih
      have hout : (encodeLoop M 33 (b :: rest) s).1 =
          (renormalizeEnc 33 ⟨(narrow M s.low s.high b).1,
            (narrow M s.low s.high b).2, s.pendingBitCount, s.ok⟩).2 ++
          (encodeLoop M 33 rest (renormalizeEnc 33 ⟨(narrow M s.low s.high b).1,
            (narrow M s.low s.high b).2, s.pendingBitCount, s.ok⟩).1).1 := by
        rw [encodeLoop_cons]
      rw [hout]
      obtain ⟨hbl, hbr⟩ := hback
      constructor
      · refine le_trans ?_ hbl
        exact_mod_cast hn1
      · refine lt_of_lt_of_le hbr ?_
        exact_mod_cast hn3


/-- An integer plus a fraction in `[0, 1)` pinned inside `[lo, hi)` pins the
integer inside `[lo, hi)` as well. -/
theorem value_bounds (v : ℕ) (i : List Bool) (lo hi : ℕ) {x : ℚ}
    (hrel : (v : ℚ) + bitsFrac i = x) (hlo : (lo : ℚ) ≤ x) (hhi : x < (hi : ℚ)) :
    lo ≤ v ∧ v < hi := by
  have h0 := bitsFrac_nonneg i
  have h1 := bitsFrac_lt_one i
  constructor
  · have h2 : (lo : ℚ) < (v : ℚ) + 1 := by linarith
    have h3 : lo < v + 1 := by exact_mod_cast h2
    omega
  · have h2 : (v : ℚ) < (hi : ℚ) := by linarith
    exact_mod_cast h2

theorem mul_two_or_one (x : ℕ) : x * 2 ||| 1 = x * 2 + 1 := by
  have h := Nat.mul_add_lt_is_or (show (1 : ℕ) < 2 ^ 1 by norm_num) x
  rw [pow_one] at h
  rw [Nat.mul_comm 2 x] at h
  exact h.symm

/-- Shifting the value register left and reading the next encoded bit into
its low bit doubles `value + bitsFrac input` exactly. -/
theorem readBit_rel (x : ℕ) (i : List Bool) :
    ((readBitInto (x * 2) i).1 : ℚ) + bitsFrac (readBitInto (x * 2) i).2 =
      2 * (x : ℚ) + 2 * bitsFrac i := by
  cases i with
  | nil =>
      simp only [readBitInto, bitsFrac_nil]
      push_cast
      ring
  | cons b rest =>
      cases b
      · simp only [readBitInto, Bool.false_eq_true, if_false, Nat.or_zero,
          bitsFrac_cons]
        push_cast
        ring
      · simp only [readBitInto, if_true, mul_two_or_one, bitsFrac_cons]
        push_cast
        ring


/-- Lockstep simulation of the two renormalization loops: if the decoder's
`value`-plus-unread-input denotes the frame value of the encoder's
renormalization output followed by the rest of the stream, and that frame
value lies in the (shared) interval, then after renormalization the decoder
matches the encoder's interval and the relation holds in the exit frame. -/
theorem renormalizeDec_sim : ∀ (fuel : ℕ) (se : EncState) (sd : DecState)
    (u : List Bool),
    sd.low = se.low → sd.high = se.high →
    se.low < se.high → se.high ≤ 2 ^ 32 - 1 →
    ((sd.value : ℚ) + bitsFrac sd.input =
      frameVal (bitsFrac ((renormalizeEnc fuel se).2 ++ u)) se.pendingBitCount) →
    ((se.low : ℚ) ≤ frameVal (bitsFrac ((renormalizeEnc fuel se).2 ++ u))
        se.pendingBitCount) →
    (frameVal (bitsFrac ((renormalizeEnc fuel se).2 ++ u)) se.pendingBitCount <
      (se.high : ℚ)) →
    (renormalizeDec fuel sd).low = (renormalizeEnc fuel se).1.low ∧
    (renormalizeDec fuel sd).high = (renormalizeEnc fuel se).1.high ∧
    ((renormalizeDec fuel sd).value : ℚ) +
        bitsFrac (renormalizeDec fuel sd).input =
      frameVal (bitsFrac u) (renormalizeEnc fuel se).1.pendingBitCount := by
  intro fuel
  induction fuel with
  | zero =>
      intro se sd u hl hh hlh hhb hrel hclo hchi
      exact ⟨hl, hh, hrel⟩
  | succ f ih =>
      intro se sd u hl hh hlh hhb hrel hclo hchi
      by_cases h1 : se.high < halfRange
      · have h1d : sd.high < halfRange := by rw [hh]; exact h1
        have hstream : (renormalizeEnc (f + 1) se).2 =
            (false :: List.replicate se.pendingBitCount true) ++
              (renormalizeEnc f (encE1 se)).2 := by
          rw [renormalizeEnc_succ_E1 f se h1]
        rw [hstream, List.append_assoc, List.cons_append, frameVal_E1]
          at hrel hclo hchi
        obtain ⟨hvl, hvh⟩ := value_bounds sd.value sd.input se.low se.high
          hrel hclo hchi
        have hv2 : sd.value * 2 < 2 ^ 32 := by rw [halfRange_eq] at h1; omega
        have hu32 : u32 (sd.value * 2) = sd.value * 2 := u32_eq_of_lt hv2
        have hl1 : (decE1 sd).low = (encE1 se).low := by
          show sd.low * 2 = se.low * 2
          rw [hl]
        have hh1 : (decE1 sd).high = (encE1 se).high := by
          show sd.high * 2 = se.high * 2
          rw [hh]
        have hlh1 : (encE1 se).low < (encE1 se).high := by
          simp only [encE1]; omega
        have hhb1 : (encE1 se).high ≤ 2 ^ 32 - 1 := by
          simp only [encE1]; rw [halfRange_eq] at h1; omega
        have hrw : (2 : ℚ) ^ 32 * bitsFrac ((renormalizeEnc f (encE1 se)).2 ++ u) =
            2 * (2 ^ 31 * bitsFrac ((renormalizeEnc f (encE1 se)).2 ++ u)) := by
          ring
        have hrel1 : ((decE1 sd).value : ℚ) + bitsFrac (decE1 sd).input =
            frameVal (bitsFrac ((renormalizeEnc f (encE1 se)).2 ++ u))
              (encE1 se).pendingBitCount := by
          show ((readBitInto (u32 (sd.value * 2)) sd.input).1 : ℚ) +
              bitsFrac (readBitInto (u32 (sd.value * 2)) sd.input).2 =
              frameVal (bitsFrac ((renormalizeEnc f (encE1 se)).2 ++ u)) 0
          rw [hu32, readBit_rel, frameVal_zero, hrw]
          linarith
        have hclo1 : ((encE1 se).low : ℚ) ≤
            frameVal (bitsFrac ((renormalizeEnc f (encE1 se)).2 ++ u))
              (encE1 se).pendingBitCount := by
          show ((se.low * 2 : ℕ) : ℚ) ≤
              frameVal (bitsFrac ((renormalizeEnc f (encE1 se)).2 ++ u)) 0
          rw [frameVal_zero, hrw]
          push_cast
          linarith
        have hchi1 : frameVal (bitsFrac ((renormalizeEnc f (encE1 se)).2 ++ u))
              (encE1 se).pendingBitCount < ((encE1 se).high : ℚ) := by
          show frameVal (bitsFrac ((renormalizeEnc f (encE1 se)).2 ++ u)) 0 <
              ((se.high * 2 : ℕ) : ℚ)
          rw [frameVal_zero, hrw]
          push_cast
          linarith
        have hdstep : renormalizeDec (f + 1) sd = renormalizeDec f (decE1 sd) :=
          renormalizeDec_succ_E1 f sd h1d
        have hestep : (renormalizeEnc (f + 1) se).1 =
            (renormalizeEnc f (encE1 se)).1 := by
          rw [renormalizeEnc_succ_E1 f se h1]
        rw [hdstep, hestep]
        exact ih (encE1 se) (decE1 sd) u hl1 hh1 hlh1 hhb1 hrel1 hclo1 hchi1
      · by_cases h2 : halfRange ≤ se.low
        · have h1d : ¬ sd.high < halfRange := by rw [hh]; exact h1
          have h2d : halfRange ≤ sd.low := by rw [hl]; exact h2
          have hstream : (renormalizeEnc (f + 1) se).2 =
              (true :: List.replicate se.pendingBitCount false) ++
                (renormalizeEnc f (encE2 se)).2 := by
            rw [renormalizeEnc_succ_E2 f se h1 h2]
          rw [hstream, List.append_assoc, List.cons_append, frameVal_E2]
            at hrel hclo hchi
          obtain ⟨hvl, hvh⟩ := value_bounds sd.value sd.input se.low se.high
            hrel hclo hchi
          have hvH : halfRange ≤ sd.value := le_trans h2 hvl
          have hv32 : sd.value < 2 ^ 32 := by omega
          have hsub : u32sub sd.value halfRange = sd.value - halfRange :=
            u32sub_eq hvH hv32 (by rw [halfRange_eq]; norm_num)
          have hv2 : (sd.value - halfRange) * 2 < 2 ^ 32 := by
            rw [halfRange_eq] at hvH ⊢; omega
          have hu32 : u32 (u32sub sd.value halfRange * 2) =
              (sd.value - halfRange) * 2 := by
            rw [hsub]; exact u32_eq_of_lt hv2
          have hl1 : (decE2 sd).low = (encE2 se).low := by
            show (sd.low - halfRange) * 2 = (se.low - halfRange) * 2
            rw [hl]
          have hh1 : (decE2 sd).high = (encE2 se).high := by
            show (sd.high - halfRange) * 2 = (se.high - halfRange) * 2
            rw [hh]
          have hhge : halfRange ≤ se.high := by omega
          have hlh1 : (encE2 se).low < (encE2 se).high := by
            simp only [encE2]; omega
          have hhb1 : (encE2 se).high ≤ 2 ^ 32 - 1 := by
            simp only [encE2]; rw [halfRange_eq] at hhge ⊢; omega
          have hclq : (((se.low - halfRange) * 2 : ℕ) : ℚ) + 2 ^ 32 =
              ((se.low * 2 : ℕ) : ℚ) := by
            have hn : ((se.low - halfRange) * 2 : ℕ) + 2 ^ 32 = se.low * 2 := by
              rw [halfRange_eq] at h2 ⊢; omega
            exact_mod_cast hn
          have hchq : (((se.high - halfRange) * 2 : ℕ) : ℚ) + 2 ^ 32 =
              ((se.high * 2 : ℕ) : ℚ) := by
            have hn : ((se.high - halfRange) * 2 : ℕ) + 2 ^ 32 = se.high * 2 := by
              rw [halfRange_eq] at hhge ⊢; omega
            exact_mod_cast hn
          have hvq : ((sd.value - halfRange : ℕ) : ℚ) + 2 ^ 31 = (sd.value : ℚ) := by
            have hn : (sd.value - halfRange : ℕ) + 2 ^ 31 = sd.value := by
              rw [halfRange_eq] at hvH ⊢; omega
            exact_mod_cast hn
          have hl2 : ((se.low * 2 : ℕ) : ℚ) = 2 * (se.low : ℚ) := by
            push_cast; ring
          have hh2c : ((se.high * 2 : ℕ) : ℚ) = 2 * (se.high : ℚ) := by
            push_cast; ring
          have hrw : (2 : ℚ) ^ 32 * bitsFrac ((renormalizeEnc f (encE2 se)).2 ++ u) =
              2 * (2 ^ 31 * bitsFrac ((renormalizeEnc f (encE2 se)).2 ++ u)) := by
            ring
          have hnum : (2 : ℚ) ^ 32 = 2 * 2 ^ 31 := by norm_num
          have hrel1 : ((decE2 sd).value : ℚ) + bitsFrac (decE2 sd).input =
              frameVal (bitsFrac ((renormalizeEnc f (encE2 se)).2 ++ u))
                (encE2 se).pendingBitCount := by
            show ((readBitInto (u32 (u32sub sd.value halfRange * 2)) sd.input).1 : ℚ) +
                bitsFrac (readBitInto (u32 (u32sub sd.value halfRange * 2))
                  sd.input).2 =
                frameVal (bitsFrac ((renormalizeEnc f (encE2 se)).2 ++ u)) 0
            rw [hu32, readBit_rel, frameVal_zero, hrw]
            linarith [hvq, hrel, hnum]
          have hclo1 : ((encE2 se).low : ℚ) ≤
              frameVal (bitsFrac ((renormalizeEnc f (encE2 se)).2 ++ u))
                (encE2 se).pendingBitCount := by
            show (((se.low - halfRange) * 2 : ℕ) : ℚ) ≤
                frameVal (bitsFrac ((renormalizeEnc f (encE2 se)).2 ++ u)) 0
            rw [frameVal_zero, hrw]
            linarith [hclq, hl2, hclo, hnum]
          have hchi1 : frameVal (bitsFrac ((renormalizeEnc f (encE2 se)).2 ++ u))
                (encE2 se).pendingBitCount < ((encE2 se).high : ℚ) := by
            show frameVal (bitsFrac ((renormalizeEnc f (encE2 se)).2 ++ u)) 0 <
                (((se.high - halfRange) * 2 : ℕ) : ℚ)
            rw [frameVal_zero, hrw]
            linarith [hchq, hh2c, hchi, hnum]
          have hdstep : renormalizeDec (f + 1) sd = renormalizeDec f (decE2 sd) :=
            renormalizeDec_succ_E2 f sd h1d h2d
          have hestep : (renormalizeEnc (f + 1) se).1 =
              (renormalizeEnc f (encE2 se)).1 := by
            rw [renormalizeEnc_succ_E2 f se h1 h2]
          rw [hdstep, hestep]
          exact ih (encE2 se) (decE2 sd) u hl1 hh1 hlh1 hhb1 hrel1 hclo1 hchi1
        · by_cases h3 : quarterRange ≤ se.low ∧ se.high < threeQuartersRange
          · have h1d : ¬ sd.high < halfRange := by rw [hh]; exact h1
            have h2d : ¬ halfRange ≤ sd.low := by rw [hl]; exact h2
            have h3d : quarterRange ≤ sd.low ∧ sd.high < threeQuartersRange := by
              rw [hl, hh]; exact h3
            obtain ⟨h3a, h3b⟩ := h3
            have hstream : (renormalizeEnc (f + 1) se).2 =
                (renormalizeEnc f (encE3 se)).2 := by
              rw [renormalizeEnc_succ_E3 f se h1 h2 ⟨h3a, h3b⟩]
            rw [hstream] at hrel hclo hchi
            obtain ⟨hvl, hvh⟩ := value_bounds sd.value sd.input se.low se.high
              hrel hclo hchi
            have hvQ : quarterRange ≤ sd.value := le_trans h3a hvl
            have hv32 : sd.value < 2 ^ 32 := by omega
            have hsub : u32sub sd.value quarterRange = sd.value - quarterRange :=
              u32sub_eq hvQ hv32 (by rw [quarterRange_eq]; norm_num)
            have hv2 : (sd.value - quarterRange) * 2 < 2 ^ 32 := by
              rw [quarterRange_eq] at hvQ ⊢
              rw [threeQuartersRange_eq] at h3b
              omega
            have hu32 : u32 (u32sub sd.value quarterRange * 2) =
                (sd.value - quarterRange) * 2 := by
              rw [hsub]; exact u32_eq_of_lt hv2
            have hqh : quarterRange ≤ se.high := by
              rw [quarterRange_eq]; rw [halfRange_eq] at h1; omega
            have hl1 : (decE3 sd).low = (encE3 se).low := by
              show (sd.low - quarterRange) * 2 = (se.low - quarterRange) * 2
              rw [hl]
            have hh1 : (decE3 sd).high = (encE3 se).high := by
              show (sd.high - quarterRange) * 2 = (se.high - quarterRange) * 2
              rw [hh]
            have hlh1 : (encE3 se).low < (encE3 se).high := by
              simp only [encE3]; omega
            have hhb1 : (encE3 se).high ≤ 2 ^ 32 - 1 := by
              simp only [encE3]
              rw [quarterRange_eq] at hqh ⊢
              rw [threeQuartersRange_eq] at h3b
              omega
            have hclq : (((se.low - quarterRange) * 2 : ℕ) : ℚ) + 2 ^ 31 =
                ((se.low * 2 : ℕ) : ℚ) := by
              have hn : ((se.low - quarterRange) * 2 : ℕ) + 2 ^ 31 =
                  se.low * 2 := by
                rw [quarterRange_eq] at h3a ⊢; omega
              exact_mod_cast hn
            have hchq : (((se.high - quarterRange) * 2 : ℕ) : ℚ) + 2 ^ 31 =
                ((se.high * 2 : ℕ) : ℚ) := by
              have hn : ((se.high - quarterRange) * 2 : ℕ) + 2 ^ 31 =
                  se.high * 2 := by
                rw [quarterRange_eq] at hqh ⊢; omega
              exact_mod_cast hn
            have hvq : ((sd.value - quarterRange : ℕ) : ℚ) + 2 ^ 30 =
                (sd.value : ℚ) := by
              have hn : (sd.value - quarterRange : ℕ) + 2 ^ 30 = sd.value := by
                rw [quarterRange_eq] at hvQ ⊢; omega
              exact_mod_cast hn
            have hl2 : ((se.low * 2 : ℕ) : ℚ) = 2 * (se.low : ℚ) := by
              push_cast; ring
            have hh2c : ((se.high * 2 : ℕ) : ℚ) = 2 * (se.high : ℚ) := by
              push_cast; ring
            have hnum : (2 : ℚ) ^ 31 = 2 * 2 ^ 30 := by norm_num
            have hrel1 : ((decE3 sd).value : ℚ) + bitsFrac (decE3 sd).input =
                frameVal (bitsFrac ((renormalizeEnc f (encE3 se)).2 ++ u))
                  (encE3 se).pendingBitCount := by
              show ((readBitInto (u32 (u32sub sd.value quarterRange * 2))
                    sd.input).1 : ℚ) +
                  bitsFrac (readBitInto (u32 (u32sub sd.value quarterRange * 2))
                    sd.input).2 =
                  frameVal (bitsFrac ((renormalizeEnc f (encE3 se)).2 ++ u))
                    (se.pendingBitCount + 1)
              rw [hu32, readBit_rel, frameVal_E3]
              linarith [hvq, hrel, hnum]
            have hclo1 : ((encE3 se).low : ℚ) ≤
                frameVal (bitsFrac ((renormalizeEnc f (encE3 se)).2 ++ u))
                  (encE3 se).pendingBitCount := by
              show (((se.low - quarterRange) * 2 : ℕ) : ℚ) ≤
                  frameVal (bitsFrac ((renormalizeEnc f (encE3 se)).2 ++ u))
                    (se.pendingBitCount + 1)
              rw [frameVal_E3]
              linarith [hclq, hl2, hclo, hnum]
            have hchi1 : frameVal (bitsFrac ((renormalizeEnc f (encE3 se)).2 ++ u))
                  (encE3 se).pendingBitCount < ((encE3 se).high : ℚ) := by
              show frameVal (bitsFrac ((renormalizeEnc f (encE3 se)).2 ++ u))
                  (se.pendingBitCount + 1) <
                  (((se.high - quarterRange) * 2 : ℕ) : ℚ)
              rw [frameVal_E3]
              linarith [hchq, hh2c, hchi, hnum]
            have hdstep : renormalizeDec (f + 1) sd =
                renormalizeDec f (decE3 sd) :=
              renormalizeDec_succ_E3 f sd h1d h2d h3d
            have hestep : (renormalizeEnc (f + 1) se).1 =
                (renormalizeEnc f (encE3 se)).1 := by
              rw [renormalizeEnc_succ_E3 f se h1 h2 ⟨h3a, h3b⟩]
            rw [hdstep, hestep]
            exact ih (encE3 se) (decE3 sd) u hl1 hh1 hlh1 hhb1 hrel1 hclo1 hchi1
          · have h1d : ¬ sd.high < halfRange := by rw [hh]; exact h1
            have h2d : ¬ halfRange ≤ sd.low := by rw [hl]; exact h2
            have h3d : ¬ (quarterRange ≤ sd.low ∧ sd.high < threeQuartersRange) := by
              rw [hl, hh]; exact h3
            have hdstep := renormalizeDec_succ_exit f sd h1d h2d h3d
            have hestep := renormalizeEnc_succ_exit f se h1 h2 h3
            rw [hestep] at hrel
            rw [hdstep, hestep]
            exact ⟨hl, hh, hrel⟩


/-- Full decoder simulation: started with the encoder's interval and the
value relation over the encoder's output stream, the decode loop emits
exactly the encoded message. -/
theorem decodeLoop_sim (M : ℕ) (hM4 : 4 ≤ M) (hM32 : M < 2 ^ 32) :
    ∀ (m : List Bool) (se : EncState) (sd : DecState),
      IsNormal se.low se.high → se.high ≤ 2 ^ 32 - 1 →
      sd.low = se.low → sd.high = se.high →
      ((sd.value : ℚ) + bitsFrac sd.input =
        frameVal (bitsFrac (encodeLoop M 33 m se).1) se.pendingBitCount) →
      (decodeLoop M 33 m.length sd).1 = m := by
  intro m
  induction m with
  | nil =>
      intro se sd hN hhb hl hh hrel
      rfl
  | cons b rest ih =>
      intro se sd hN hhb hl hh hrel
      obtain ⟨hn1, hn2, hn3⟩ := narrow_state M se.low se.high b hM4 hM32 hN hhb
      have hh1 : (narrow M se.low se.high b).2 ≤ 2 ^ 32 - 1 := by omega
      have hfge := renorm_fuel_ge (narrow M se.low se.high b).1
        (narrow M se.low se.high b).2 hn2
      obtain ⟨⟨hex, hexb⟩, hstab⟩ := renormalizeEnc_exit 33
        ⟨(narrow M se.low se.high b).1, (narrow M se.low se.high b).2,
          se.pendingBitCount, se.ok⟩ hn2 hh1 hfge
      have hih := encodeLoop_contains M hM4 hM32 rest
        (renormalizeEnc 33 ⟨(narrow M se.low se.high b).1,
          (narrow M se.low se.high b).2, se.pendingBitCount, se.ok⟩).1 hex hexb
      obtain ⟨hbl, hbr⟩ := renormalizeEnc_back 33
        ⟨(narrow M se.low se.high b).1, (narrow M se.low se.high b).2,
          se.pendingBitCount, se.ok⟩
        (encodeLoop M 33 rest (renormalizeEnc 33 ⟨(narrow M se.low se.high b).1,
          (narrow M se.low se.high b).2, se.pendingBitCount, se.ok⟩).1).1
        hn2 hh1 hih
      have hout : (encodeLoop M 33 (b :: rest) se).1 =
          (renormalizeEnc 33 ⟨(narrow M se.low se.high b).1,
            (narrow M se.low se.high b).2, se.pendingBitCount, se.ok⟩).2 ++
          (encodeLoop M 33 rest (renormalizeEnc 33 ⟨(narrow M se.low se.high b).1,
            (narrow M se.low se.high b).2, se.pendingBitCount, se.ok⟩).1).1 := by
        rw [encodeLoop_cons]
      rw [hout] at hrel
      obtain ⟨hvl, hvh⟩ := value_bounds sd.value sd.input
        (narrow M se.low se.high b).1 (narrow M se.low se.high b).2 hrel hbl hbr
      cases b with
      | false =>
          have hcond : sd.value < sd.low +
              FastUint32MultiplicationByFraction.Multiply ⟨M⟩
                (sd.high - sd.low) := by
            rw [hl, hh]
            exact hvh
          have hstep := decodeLoop_succ_lt M 33 rest.length sd hcond
          have hldl : ({ sd with high := sd.low + FastUint32MultiplicationByFraction.Multiply ⟨M⟩ (sd.high - sd.low) } : DecState).low =
              (narrow M se.low se.high false).1 := by
            show sd.low = (narrow M se.low se.high false).1
            simp only [hl, narrow_false]
          have hhdl : ({ sd with high := sd.low + FastUint32MultiplicationByFraction.Multiply ⟨M⟩ (sd.high - sd.low) } : DecState).high =
              (narrow M se.low se.high false).2 := by
            show sd.low + FastUint32MultiplicationByFraction.Multiply ⟨M⟩
                (sd.high - sd.low) = (narrow M se.low se.high false).2
            simp only [hl, hh, narrow_false]
          have hsim := renormalizeDec_sim 33
            ⟨(narrow M se.low se.high false).1, (narrow M se.low se.high false).2,
              se.pendingBitCount, se.ok⟩
            { sd with high := sd.low + FastUint32MultiplicationByFraction.Multiply ⟨M⟩ (sd.high - sd.low) }
            (encodeLoop M 33 rest (renormalizeEnc 33
              ⟨(narrow M se.low se.high false).1, (narrow M se.low se.high false).2,
                se.pendingBitCount, se.ok⟩).1).1
            hldl hhdl hn2 hh1 hrel hbl hbr
          have hih2 := ih (renormalizeEnc 33 ⟨(narrow M se.low se.high false).1,
              (narrow M se.low se.high false).2, se.pendingBitCount, se.ok⟩).1
            (renormalizeDec 33 { sd with high := sd.low + FastUint32MultiplicationByFraction.Multiply ⟨M⟩ (sd.high - sd.low) })
            hex hexb hsim.1 hsim.2.1 hsim.2.2
          show (decodeLoop M 33 (rest.length + 1) sd).1 = false :: rest
          rw [hstep]
          show false :: (decodeLoop M 33 rest.length
            (renormalizeDec 33 { sd with high := sd.low + FastUint32MultiplicationByFraction.Multiply ⟨M⟩ (sd.high - sd.low) })).1 = false :: rest
          rw [hih2]
      | true =>
          have hcond : ¬ sd.value < sd.low +
              FastUint32MultiplicationByFraction.Multiply ⟨M⟩
                (sd.high - sd.low) := by
            rw [hl, hh]
            exact Nat.not_lt.mpr hvl
          have hstep := decodeLoop_succ_ge M 33 rest.length sd hcond
          have hldl : ({ sd with low := sd.low + FastUint32MultiplicationByFraction.Multiply ⟨M⟩ (sd.high - sd.low) } : DecState).low =
              (narrow M se.low se.high true).1 := by
            show sd.low + FastUint32MultiplicationByFraction.Multiply ⟨M⟩
                (sd.high - sd.low) = (narrow M se.low se.high true).1
            simp only [hl, hh, narrow_true]
          have hhdl : ({ sd with low := sd.low + FastUint32MultiplicationByFraction.Multiply ⟨M⟩ (sd.high - sd.low) } : DecState).high =
              (narrow M se.low se.high true).2 := by
            show sd.high = (narrow M se.low se.high true).2
            simp only [hh, narrow_true]
          have hsim := renormalizeDec_sim 33
            ⟨(narrow M se.low se.high true).1, (narrow M se.low se.high true).2,
              se.pendingBitCount, se.ok⟩
            { sd with low := sd.low + FastUint32MultiplicationByFraction.Multiply ⟨M⟩ (sd.high - sd.low) }
            (encodeLoop M 33 rest (renormalizeEnc 33
              ⟨(narrow M se.low se.high true).1, (narrow M se.low se.high true).2,
                se.pendingBitCount, se.ok⟩).1).1
            hldl hhdl hn2 hh1 hrel hbl hbr
          have hih2 := ih (renormalizeEnc 33 ⟨(narrow M se.low se.high true).1,
              (narrow M se.low se.high true).2, se.pendingBitCount, se.ok⟩).1
            (renormalizeDec 33 { sd with low := sd.low + FastUint32MultiplicationByFraction.Multiply ⟨M⟩ (sd.high - sd.low) })
            hex hexb hsim.1 hsim.2.1 hsim.2.2
          show (decodeLoop M 33 (rest.length + 1) sd).1 = true :: rest
          rw [hstep]
          show true :: (decodeLoop M 33 rest.length
            (renormalizeDec 33 { sd with low := sd.low + FastUint32MultiplicationByFraction.Multiply ⟨M⟩ (sd.high - sd.low) })).1 = true :: rest
          rw [hih2]


theorem foldl_or_eq : ∀ (u : List Bool) (a : ℕ),
    List.foldl (fun v b => v * 2 ||| (if b then 1 else 0)) a u =
    List.foldl (fun v b => v * 2 + (if b then 1 else 0)) a u := by
  intro u
  induction u with
  | nil => intro a; rfl
  | cons b r ih =>
      intro a
      have hbit : a * 2 ||| (if b then 1 else 0) = a * 2 + (if b then 1 else 0) := by
        cases b
        · simp
        · simpa using mul_two_or_one a
      simp only [List.foldl_cons, hbit]
      exact ih _

theorem foldl_add_frac : ∀ (u : List Bool) (a : ℕ),
    ((List.foldl (fun v b => v * 2 + (if b then 1 else 0)) a u : ℕ) : ℚ) =
      (a : ℚ) * 2 ^ u.length + 2 ^ u.length * bitsFrac u := by
  intro u
  induction u with
  | nil =>
      intro a
      simp [bitsFrac_nil]
  | cons b r ih =>
      intro a
      simp only [List.foldl_cons, List.length_cons]
      rw [ih (a * 2 + (if b then 1 else 0)), bitsFrac_cons]
      cases b
      · norm_num
        ring
      · norm_num
        ring

/-- The MSB-first fold used by `initValue` computes the numerator of the
binary fraction: its value is exactly `2^len · bitsFrac`, in particular
below `2^len`. -/
theorem foldl_or_frac (w : List Bool) :
    ((List.foldl (fun v b => v * 2 ||| (if b then 1 else 0)) 0 w : ℕ) : ℚ) =
      2 ^ w.length * bitsFrac w ∧
    List.foldl (fun v b => v * 2 ||| (if b then 1 else 0)) 0 w < 2 ^ w.length := by
  have hval : ((List.foldl (fun v b => v * 2 ||| (if b then 1 else 0)) 0 w : ℕ) : ℚ) =
      2 ^ w.length * bitsFrac w := by
    rw [foldl_or_eq w 0, foldl_add_frac w 0]
    norm_num
  refine ⟨hval, ?_⟩
  have hq : ((List.foldl (fun v b => v * 2 ||| (if b then 1 else 0)) 0 w : ℕ) : ℚ) <
      ((2 ^ w.length : ℕ) : ℚ) := by
    rw [hval]
    push_cast
    have hp : (0 : ℚ) < 2 ^ w.length := by positivity
    nlinarith [bitsFrac_lt_one w, bitsFrac_nonneg w]
  exact_mod_cast hq

theorem initValue_eq (u : List Bool) :
    initValue u = u32 ((List.foldl (fun v b => v * 2 ||| (if b then 1 else 0)) 0
      (u.take (min 32 u.length))) <<< (32 - min 32 u.length)) := rfl

/-- The decoder's initialized `value` register plus the unread remainder of
the stream denotes exactly `2^32` times the whole stream's binary
fraction. -/
theorem initValue_rel (u : List Bool) :
    ((initValue u : ℕ) : ℚ) + bitsFrac (List.drop (min 32 u.length) u) =
      2 ^ 32 * bitsFrac u := by
  by_cases h32 : 32 ≤ u.length
  · have hceq : min 32 u.length = 32 := min_eq_left h32
    rw [hceq]
    have hlen : (u.take 32).length = 32 := by
      rw [List.length_take]
      exact min_eq_left h32
    obtain ⟨hval, hvlt⟩ := foldl_or_frac (u.take 32)
    rw [hlen] at hval hvlt
    have hsplit : bitsFrac u = bitsFrac (u.take 32) +
        bitsFrac (u.drop 32) / 2 ^ 32 := by
      conv_lhs => rw [← List.take_append_drop 32 u]
      rw [bitsFrac_append, hlen]
    have hshift : initValue u =
        List.foldl (fun v b => v * 2 ||| (if b then 1 else 0)) 0 (u.take 32) := by
      rw [initValue_eq, hceq]
      norm_num [Nat.shiftLeft_eq]
      exact u32_eq_of_lt hvlt
    rw [hshift, hval, hsplit]
    field_simp
    ring
  · have hle : u.length ≤ 32 := le_of_not_le h32
    have hceq : min 32 u.length = u.length := min_eq_right hle
    have hdrop : u.drop (min 32 u.length) = [] := by
      rw [hceq]
      exact List.drop_length u
    obtain ⟨hval, hvlt⟩ := foldl_or_frac u
    have hsb : List.foldl (fun v b => v * 2 ||| (if b then 1 else 0)) 0 u *
        2 ^ (32 - u.length) < 2 ^ 32 := by
      have h1 : List.foldl (fun v b => v * 2 ||| (if b then 1 else 0)) 0 u *
          2 ^ (32 - u.length) < 2 ^ u.length * 2 ^ (32 - u.length) :=
        Nat.mul_lt_mul_of_pos_right hvlt (Nat.pos_pow_of_pos _ (by norm_num))
      have h2 : 2 ^ u.length * 2 ^ (32 - u.length) = 2 ^ 32 := by
        rw [← pow_add]
        congr 1
        omega
      omega
    have hshift : initValue u =
        List.foldl (fun v b => v * 2 ||| (if b then 1 else 0)) 0 u *
          2 ^ (32 - u.length) := by
      rw [initValue_eq, hceq, List.take_length, Nat.shiftLeft_eq]
      exact u32_eq_of_lt hsb
    rw [hshift, hdrop, bitsFrac_nil]
    push_cast
    rw [hval, add_zero]
    have hpow : (2 : ℚ) ^ u.length * 2 ^ (32 - u.length) = 2 ^ 32 := by
      rw [← pow_add]
      congr 1
      omega
    calc (2 : ℚ) ^ u.length * bitsFrac u * 2 ^ (32 - u.length)
        = (2 ^ u.length * 2 ^ (32 - u.length)) * bitsFrac u := by ring
      _ = 2 ^ 32 * bitsFrac u := by rw [hpow]

/-- The round trip over the fixed-point multiplier: any `M` in the image of
the clipped probabilities, enough fuel on both sides. -/
theorem bac_round_trip_mult (M : ℕ) (hM4 : 4 ≤ M) (hM32 : M < 2 ^ 32)
    (fe fd : ℕ) (hfe : 33 ≤ fe) (hfd : 33 ≤ fd) (m : List Bool) :
    (Decode M fd (Encode M fe m).1 m.length).1 = m := by
  have hhi : highest - 1 = 2 ^ 32 - 1 := by rw [highest_eq]
  have hN0 : IsNormal (lowest : ℕ) (highest - 1) := by
    refine ⟨?_, ?_, Or.inl ?_⟩
    · rw [halfRange_eq, hhi]; norm_num
    · show lowest < halfRange
      rw [halfRange_eq]
      norm_num [lowest]
    · show lowest < quarterRange
      rw [quarterRange_eq]
      norm_num [lowest]
  have hhb0 : highest - 1 ≤ 2 ^ 32 - 1 := le_of_eq hhi
  have hstabE := (encodeLoop_master M hM4 hM32 m ⟨lowest, highest - 1, 0, true⟩
    hN0 hhb0).2 fe hfe
  have houtEq : (Encode M fe m).1 =
      (encodeLoop M 33 m ⟨lowest, highest - 1, 0, true⟩).1 := by
    show (encodeLoop M fe m ⟨lowest, highest - 1, 0, true⟩).1 = _
    rw [hstabE]
  rw [houtEq]
  show (decodeLoop M fd m.length
    ⟨lowest, highest - 1,
      initValue (encodeLoop M 33 m ⟨lowest, highest - 1, 0, true⟩).1,
      ((encodeLoop M 33 m ⟨lowest, highest - 1, 0, true⟩).1).drop
        (min 32 ((encodeLoop M 33 m ⟨lowest, highest - 1, 0, true⟩).1).length),
      true, true⟩).1 = m
  have hstabD := (decodeLoop_master M hM4 hM32 m.length
    ⟨lowest, highest - 1,
      initValue (encodeLoop M 33 m ⟨lowest, highest - 1, 0, true⟩).1,
      ((encodeLoop M 33 m ⟨lowest, highest - 1, 0, true⟩).1).drop
        (min 32 ((encodeLoop M 33 m ⟨lowest, highest - 1, 0, true⟩).1).length),
      true, true⟩ hN0 hhb0).2 fd hfd
  rw [hstabD]
  refine decodeLoop_sim M hM4 hM32 m ⟨lowest, highest - 1, 0, true⟩ _
    hN0 hhb0 rfl rfl ?_
  show ((initValue (encodeLoop M 33 m ⟨lowest, highest - 1, 0, true⟩).1 : ℕ) : ℚ) +
      bitsFrac (((encodeLoop M 33 m ⟨lowest, highest - 1, 0, true⟩).1).drop
        (min 32 ((encodeLoop M 33 m ⟨lowest, highest - 1, 0, true⟩).1).length)) =
      frameVal (bitsFrac (encodeLoop M 33 m ⟨lowest, highest - 1, 0, true⟩).1) 0
  rw [frameVal_zero]
  exact initValue_rel _


/-- The initial coding interval `[lowest, highest − 1]` is a proper,
normalized interval below `2^32`. -/
theorem init_interval_normal : IsNormal (lowest : ℕ) (highest - 1) ∧
    highest - 1 ≤ 2 ^ 32 - 1 := by
  have hhi : highest - 1 = 2 ^ 32 - 1 := by rw [highest_eq]
  refine ⟨⟨?_, ?_, Or.inl ?_⟩, le_of_eq hhi⟩
  · rw [halfRange_eq, hhi]; norm_num
  · show lowest < halfRange
    rw [halfRange_eq]
    norm_num [lowest]
  · show lowest < quarterRange
    rw [quarterRange_eq]
    norm_num [lowest]

/-- **C1.** For every probability `p ∈ [0.001, 0.999]` (modelled by the
exact rational of the `double`, so that the constructed fixed-point
multiplier is `⌊p·2^32⌋`), every bit message `m`, and any sufficient loop
fuel on both sides (33 doublings always exit the renormalization loops),
decoding the encoder's output bit stream with the same probability and
output length `|m|` writes back exactly the bits of `m`. -/
theorem bac_round_trip (p : ℚ) (hp1 : 1 / 1000 ≤ p) (hp2 : p ≤ 999 / 1000)
    (mul : FastUint32MultiplicationByFraction)
    (hmul : FastUint32MultiplicationByFraction.construct p = some mul)
    (m : List Bool) (fe fd : ℕ) (hfe : 33 ≤ fe) (hfd : 33 ≤ fd) :
    (Decode mul.scaledMultiplier fd
      (Encode mul.scaledMultiplier fe m).1 m.length).1 = m := by
  have hrange : ¬ (p < 0 ∨ 1 < p) := by
    push_neg
    constructor <;> linarith
  have hsome : FastUint32MultiplicationByFraction.construct p =
      some ⟨(⌊p * 2 ^ 32⌋).toNat⟩ := by
    unfold FastUint32MultiplicationByFraction.construct
    rw [if_neg hrange]
  rw [hsome] at hmul
  obtain rfl : mul = ⟨(⌊p * 2 ^ 32⌋).toNat⟩ := (Option.some.inj hmul).symm
  have hmulbound : (1 / 1000 : ℚ) * 2 ^ 32 ≤ p * 2 ^ 32 :=
    mul_le_mul_of_nonneg_right hp1 (by positivity)
  have hmulhigh : p * 2 ^ 32 ≤ (999 / 1000 : ℚ) * 2 ^ 32 :=
    mul_le_mul_of_nonneg_right hp2 (by positivity)
  have hflo : (4 : ℤ) ≤ ⌊p * 2 ^ 32⌋ := by
    apply Int.le_floor.mpr
    push_cast
    linarith
  have hfhi : ⌊p * 2 ^ 32⌋ < 2 ^ 32 := by
    apply Int.floor_lt.mpr
    push_cast
    linarith
  have hM4 : 4 ≤ (⌊p * 2 ^ 32⌋).toNat := by omega
  have hM32 : (⌊p * 2 ^ 32⌋).toNat < 2 ^ 32 := by omega
  exact bac_round_trip_mult _ hM4 hM32 fe fd hfe hfd m

theorem bac_round_trip_witness :
    (1 / 1000 : ℚ) ≤ 1 / 2 ∧ (1 / 2 : ℚ) ≤ 999 / 1000 ∧
    FastUint32MultiplicationByFraction.construct (1 / 2) =
      some ⟨2147483648⟩ ∧
    (Decode ((⟨2147483648⟩ :
        FastUint32MultiplicationByFraction).scaledMultiplier) 33
      (Encode ((⟨2147483648⟩ :
        FastUint32MultiplicationByFraction).scaledMultiplier) 33
        [true, false, true]).1 3).1 = [true, false, true] := by
  have hcon : FastUint32MultiplicationByFraction.construct (1 / 2) =
      some ⟨2147483648⟩ := by
    unfold FastUint32MultiplicationByFraction.construct
    rw [if_neg (by norm_num)]
    have heq : (1 / 2 : ℚ) * 2 ^ 32 = ((2147483648 : ℕ) : ℚ) := by norm_num
    rw [heq, Int.floor_natCast]
    rfl
  exact ⟨by norm_num, by norm_num, hcon,
    bac_round_trip (1 / 2) (by norm_num) (by norm_num) ⟨2147483648⟩ hcon
      [true, false, true] 33 33 (le_refl 33) (le_refl 33)⟩

/-- **C5 (amended).** For every message and every valid probability
(multiplier `4 ≤ M < 2^32`), the encoder's interval monitor holds: at every
renormalization step `low < high` and every doubling of the interval
endpoints (`2·low`, `2·high`, `2·(x − halfRange)`, `2·(x − quarterRange)`)
stays below `2^32`; the decoder's interval monitor holds likewise for
every input bit array.  (The decoder's `value`-register doublings can wrap
on adversarial input — see the counterexample.) -/
theorem bac_interval_invariants (M : ℕ) (hM4 : 4 ≤ M) (hM32 : M < 2 ^ 32)
    (fe fd : ℕ) (hfe : 33 ≤ fe) (hfd : 33 ≤ fd)
    (m inputBits : List Bool) (n : ℕ) :
    (Encode M fe m).2.ok = true ∧
    (Decode M fd inputBits n).2.okInterval = true := by
  obtain ⟨hN0, hhb0⟩ := init_interval_normal
  constructor
  · have hstab := encodeLoop_master M hM4 hM32 m
      ⟨lowest, highest - 1, 0, true⟩ hN0 hhb0
    have heq : Encode M fe m =
        encodeLoop M 33 m ⟨lowest, highest - 1, 0, true⟩ := by
      show encodeLoop M fe m _ = _
      exact hstab.2 fe hfe
    rw [heq]
    exact hstab.1 rfl
  · have hstab := decodeLoop_master M hM4 hM32 n
      ⟨lowest, highest - 1, initValue inputBits,
        inputBits.drop (min 32 inputBits.length), true, true⟩ hN0 hhb0
    have heq : Decode M fd inputBits n =
        decodeLoop M 33 n ⟨lowest, highest - 1, initValue inputBits,
          inputBits.drop (min 32 inputBits.length), true, true⟩ := by
      show decodeLoop M fd n _ = _
      exact hstab.2 fd hfd
    rw [heq]
    exact hstab.1 rfl

theorem bac_interval_invariants_witness :
    4 ≤ 2 ^ 31 ∧ 2 ^ 31 < 2 ^ 32 ∧
    (Encode (2 ^ 31) 33 [true, true, false]).2.ok = true ∧
    (Decode (2 ^ 31) 33 [true, false] 5).2.okInterval = true := by
  refine ⟨by norm_num, by norm_num, ?_, ?_⟩
  · exact (bac_interval_invariants (2 ^ 31) (by norm_num) (by norm_num) 33 33
      (le_refl 33) (le_refl 33) [true, true, false] [true, false] 5).1
  · exact (bac_interval_invariants (2 ^ 31) (by norm_num) (by norm_num) 33 33
      (le_refl 33) (le_refl 33) [true, true, false] [true, false] 5).2

/-- **C5 counterexample.** On the adversarial all-ones input bit array
(33 bits, probability one half, 33 requested output bits), a doubling of
the decoder's `value` register reaches `2^32` and wraps: the claim that
*every* doubling in the renormalization loops stays below `2^32` is false
for `Decode`'s `value` register on arbitrary (non-encoder-produced)
input. -/
theorem bac_value_wraparound_cex :
    (Decode (2 ^ 31) 33 (List.replicate 33 true) 33).2.okValue = false := by
  decide

end BinaryArithmeticCoder

namespace BinaryRangeANSCoder

/-- The rANS decode loop emits exactly one output bit per iteration, for
any coder, any bytes, and any state. -/
theorem rans_decode_length (c : BinaryRangeANSCoder) : ∀ (n : ℕ)
    (bytes : List ℕ) (state : ℕ),
    (decodeLoop c n bytes state).1.length = n := by
  intro n
  induction n with
  | zero => intro bytes state; rfl
  | succ k ih =>
      intro bytes state
      simp only [decodeLoop, List.length_cons]
      rw [ih]

end BinaryRangeANSCoder

/-- **C7.** Decode never fails on data: for arbitrary encoded bytes and an
arbitrary initial state the rANS decoder writes exactly `n` output bits;
for an arbitrary encoded bit array and any valid probability the binary
arithmetic decoder writes exactly `n` output bits, and its renormalization
loop terminates (any fuel of at least 33 gives the same result as fuel
33). -/
theorem decode_total (c : BinaryRangeANSCoder) (encodedBytes : List ℕ)
    (state n : ℕ) (M : ℕ) (hM4 : 4 ≤ M) (hM32 : M < 2 ^ 32)
    (inputBits : List Bool) (fd : ℕ) (hfd : 33 ≤ fd) :
    (BinaryRangeANSCoder.Decode c encodedBytes state n).length = n ∧
    (BinaryArithmeticCoder.Decode M fd inputBits n).1.length = n ∧
    BinaryArithmeticCoder.Decode M fd inputBits n =
      BinaryArithmeticCoder.Decode M 33 inputBits n := by
  obtain ⟨hN0, hhb0⟩ := BinaryArithmeticCoder.init_interval_normal
  refine ⟨BinaryRangeANSCoder.rans_decode_length c n encodedBytes state,
    BinaryArithmeticCoder.decodeLoop_length M fd n _, ?_⟩
  show BinaryArithmeticCoder.decodeLoop M fd n _ =
    BinaryArithmeticCoder.decodeLoop M 33 n _
  exact (BinaryArithmeticCoder.decodeLoop_master M hM4 hM32 n
    ⟨BinaryArithmeticCoder.lowest, BinaryArithmeticCoder.highest - 1,
      BinaryArithmeticCoder.initValue inputBits,
      inputBits.drop (min 32 inputBits.length), true, true⟩ hN0 hhb0).2 fd hfd

theorem decode_total_witness :
    4 ≤ 2 ^ 31 ∧ 2 ^ 31 < 2 ^ 32 ∧ 33 ≤ 34 ∧
    (BinaryRangeANSCoder.Decode (BinaryRangeANSCoder.construct 1 8)
      [7] 300 2).length = 2 ∧
    (BinaryArithmeticCoder.Decode (2 ^ 31) 34 [true] 2).1.length = 2 ∧
    BinaryArithmeticCoder.Decode (2 ^ 31) 34 [true] 2 =
      BinaryArithmeticCoder.Decode (2 ^ 31) 33 [true] 2 := by
  have h := decode_total (BinaryRangeANSCoder.construct 1 8) [7] 300 2 (2 ^ 31)
    (by norm_num) (by norm_num) [true] 34 (by norm_num)
  exact ⟨by norm_num, by norm_num, by norm_num, h.1, h.2.1, h.2.2⟩

end EntropyCoding
